import Mathlib

/-!
Formal model of the multi-destination upload orchestrator of this repository
(`src/pages/Upload.tsx`).  The second source file (`BlobList.tsx`) is pure
rendering over already-resolved data and contains none of the state machine
the claims are about, so it is not modelled.

Modelling conventions:
* The React state `transfers : { [key: string]: TransferStats }` is a partial
  map from destination name to `TransferStats`; we embed it as
  `String → Option TransferStats` (`none` = key absent / `undefined`).
* React state updates (`setTransfers`, `setFiles`) are modelled as taking
  effect at their program point.  This matches the runtime behaviour of the
  source: the sizing updater mutates the very objects held by the `transfers`
  closure in place, and the transfer loop increments
  `transfers[server.name].transferred` by direct mutation, so program order
  is the observable order of ledger updates.
* The external collaborators are oracles: `removeExifData` is an arbitrary
  function `LocalFile → LocalFile`; `BlossomClient.getUploadAuth` and
  `BlossomClient.uploadBlob` are calls that either succeed or throw, decided
  by two Boolean oracles indexed by destination name and file position.
  `useServerInfo`'s URL lookup only feeds the transport oracle and carries no
  further information, so it is not modelled separately.
* The async function `upload` has no try/catch: a rejection of either await
  propagates out of the whole function.  The model threads a success flag;
  once it is `false` nothing further executes, exactly as in the source.
* Ghost observation logs (`auths`, `txs`, `invals`, `clears`) record the
  calls made to the external collaborators (`getUploadAuth`, `uploadBlob`,
  `queryClient.invalidateQueries`, `setFiles([])`); they let theorems speak
  about which calls a run performed.
* Each run is returned together with the list of all intermediate states
  (one per atomic update or external call), so "every observation point"
  claims quantify over that trace.
-/

namespace Bouquet

/-- `TransferStats` from Upload.tsx lines 11-15: per-destination ledger entry
`{ enabled, size, transferred }`.  Sizes are byte counts, embedded as `Nat`. -/
structure TransferStats where
  enabled : Bool
  size : Nat
  transferred : Nat
deriving DecidableEq

/-- A selected local file; the orchestrator only ever reads its byte size. -/
structure LocalFile where
  size : Nat
deriving DecidableEq

/-- A configured destination as the orchestrator sees it (`useServers`):
identified by its unique `name`, which keys the ledger. -/
structure Server where
  name : String
deriving DecidableEq

/-- The ledger: the `transfers` React state, a string-keyed object whose
entries may be absent (`none` = JS `undefined`). -/
abbrev Ledger := String → Option TransferStats

/-- The empty object `{}` used as the seed of `clearTransfers`' reduce. -/
def emptyLedger : Ledger := fun _ => none

/-- Writing one key of a string-keyed object (`{ ...g, [name]: t }`, or the
equivalent in-place assignment). -/
def insertL (name : String) (t : TransferStats) (g : Ledger) : Ledger :=
  fun k => if k = name then some t else g k

/-- The loop guard `transfers[server.name]?.enabled` (Upload.tsx line 52):
an absent entry reads as `undefined`, which is falsy. -/
def enabledIn (g : Ledger) (name : String) : Bool :=
  match g name with
  | some t => t.enabled
  | none => false

/-- The `transferred` field of an entry, `0` when the entry is absent. -/
def trOf (g : Ledger) (name : String) : Nat :=
  match g name with
  | some t => t.transferred
  | none => 0

/-- The `size` field of an entry, `0` when the entry is absent. -/
def szOf (g : Ledger) (name : String) : Nat :=
  match g name with
  | some t => t.size
  | none => 0

/-- `filesToUpload.reduce((acc, f) => acc + f.size, 0)` (Upload.tsx line 38). -/
def sumSizes (fs : List LocalFile) : Nat :=
  fs.foldl (fun acc f => acc + f.size) 0

/-- `clearTransfers` (Upload.tsx lines 69-71): replaces the whole ledger with
`servers.reduce((acc, s) => ({ ...acc, [s.name]: { enabled: true, size: 0,
transferred: 0 } }), {})`.  The previous ledger is passed (it is the React
state being replaced) and ignored, as in the source. -/
def clearTransfers (servers : List Server) (_g : Ledger) : Ledger :=
  servers.foldl (fun acc s => insertL s.name ⟨true, 0, 0⟩ acc) emptyLedger

/-- The per-destination checkbox handler (Upload.tsx lines 116-118):
`setTransfers(ut => ({ ...ut, [s.name]: { enabled: e.target.checked,
transferred: 0, size: 0 } }))`. -/
def toggleTransfer (name : String) (checked : Bool) (g : Ledger) : Ledger :=
  insertL name ⟨checked, 0, 0⟩ g

/-- One iteration of the sizing updater (Upload.tsx lines 43-47): if this
server's entry is enabled, set its `size` to `totalSize`.  The source reads
`newTransfers[server.name].enabled` without an optional-chain and would raise
a TypeError on an absent entry; the app establishes an entry for every server
on mount (`useEffect` → `clearTransfers`, lines 73-75), so the sizing only
ever runs with all entries present.  The model leaves an absent entry
unchanged. -/
def setSizeStep (total : Nat) (g : Ledger) (srv : Server) : Ledger :=
  match g srv.name with
  | some t => if t.enabled then insertL srv.name { t with size := total } g else g
  | none => g

/-- The whole sizing loop (Upload.tsx lines 43-47): fold `setSizeStep` over
the server list, starting from the current ledger. -/
def setSizes (servers : List Server) (total : Nat) (g : Ledger) : Ledger :=
  servers.foldl (setSizeStep total) g

/-- `transfers[server.name].transferred += file.size` (Upload.tsx line 60).
The enabled-guard of the loop guarantees the entry is present; on an absent
entry the model is the identity. -/
def incTransferred (name : String) (sz : Nat) (g : Ledger) : Ledger :=
  match g name with
  | some t => insertL name { t with transferred := t.transferred + sz } g
  | none => g

/-- Success/failure oracles for the two awaited external calls, indexed by
destination name and position of the file in the sanitized batch:
`authOk` decides `BlossomClient.getUploadAuth`, `txOk` decides
`BlossomClient.uploadBlob`. -/
structure Oracle where
  authOk : String → Nat → Bool
  txOk : String → Nat → Bool

/-- The orchestrator page state: the ledger and file selection, plus ghost
logs of the calls made to the external collaborators.
`auths`/`txs` log `(destination name, file index)` of each
`getUploadAuth` / `uploadBlob` call, `invals` logs the destination names
passed to `queryClient.invalidateQueries`, and `clears` counts the
`setFiles([])` invocations. -/
structure OrchState where
  ledger : Ledger
  filesSel : List LocalFile
  invals : List String
  auths : List (String × Nat)
  txs : List (String × Nat)
  clears : Nat

/-- Inner loop of `upload` (Upload.tsx lines 56-62) for one destination `d`:
for each file, call `getUploadAuth`, then `uploadBlob`, then increment the
destination's `transferred` by `file.size`.  Either await may reject; there
is no try/catch, so a rejection ends the loop with the flag `false`.
Returns (list of intermediate states, final state, completed-without-throw).
`k` is the index of the first file of `fs` within the batch. -/
def fileLoop (oc : Oracle) (d : String) (fs : List LocalFile) (k : Nat)
    (s : OrchState) : List OrchState × OrchState × Bool :=
  match fs with
  | [] => ([], s, true)
  | f :: rest =>
    let s1 := { s with auths := s.auths ++ [(d, k)] }
    if oc.authOk d k then
      let s2 := { s1 with txs := s1.txs ++ [(d, k)] }
      if oc.txOk d k then
        let s3 := { s2 with ledger := incTransferred d f.size s2.ledger }
        let r := fileLoop oc d rest (k + 1) s3
        (s1 :: s2 :: s3 :: r.1, r.2)
      else ([s1, s2], s2, false)
    else ([s1], s1, false)

/-- Outer loop of `upload` (Upload.tsx lines 51-65): for each server, skip it
when `!transfers[server.name]?.enabled`; otherwise run the file loop, then
`queryClient.invalidateQueries({ queryKey: ['blobs', server.name] })`, then
`setFiles([])`.  A rejection inside the file loop propagates out of the whole
async function: the remaining servers, the invalidation and the file clear
for the failing server all do not run. -/
def destsLoop (oc : Oracle) (files : List LocalFile) (servers : List Server)
    (s : OrchState) : List OrchState × OrchState × Bool :=
  match servers with
  | [] => ([], s, true)
  | srv :: rest =>
    if enabledIn s.ledger srv.name then
      let r := fileLoop oc srv.name files 0 s
      if r.2.2 then
        let s2 := { r.2.1 with invals := r.2.1.invals ++ [srv.name] }
        let s3 := { s2 with filesSel := [], clears := s2.clears + 1 }
        let r2 := destsLoop oc files rest s3
        (r.1 ++ s2 :: s3 :: r2.1, r2.2)
      else r
    else destsLoop oc files rest s

/-- The sanitization pass of `upload` (Upload.tsx lines 27-34): when
`cleanPrivateData` is set, each selected file is replaced by
`removeExifData(f)` (an external transform), in order; otherwise the
selection is used as-is. -/
def uploadFiles (sanitize : LocalFile → LocalFile) (cleanPrivateData : Bool)
    (s : OrchState) : List LocalFile :=
  if cleanPrivateData then s.filesSel.map sanitize else s.filesSel

/-- `upload` (Upload.tsx lines 26-67): sanitize the selection; if non-empty,
set every enabled destination's ledger `size` to the total sanitized size in
one `setTransfers` transition, then run the destination loop.
Returns (intermediate states, final state, completed-without-throw). -/
def upload (oc : Oracle) (sanitize : LocalFile → LocalFile)
    (cleanPrivateData : Bool) (servers : List Server) (s : OrchState) :
    List OrchState × OrchState × Bool :=
  let filesToUpload := uploadFiles sanitize cleanPrivateData s
  if filesToUpload.length = 0 then ([], s, true)
  else
    let totalSize := sumSizes filesToUpload
    let s1 := { s with ledger := setSizes servers totalSize s.ledger }
    let r := destsLoop oc filesToUpload servers s1
    (s1 :: r.1, r.2)

/-- `handleFileChange` / `handleDrop` (Upload.tsx lines 77-92): a non-empty
selection is appended to the current file list. -/
def handleFileChange (selectedFiles : List LocalFile) (s : OrchState) : OrchState :=
  if selectedFiles.length > 0 then { s with filesSel := s.filesSel ++ selectedFiles } else s

/-! Concrete scenario material used by the example runs below: two named
destinations, the identity sanitizer, and three oracles (all calls succeed;
every transport call fails; every `getUploadAuth` call for destination "A"
fails). -/

/-- Destination named "A". -/
def srvA : Server := ⟨"A"⟩

/-- Destination named "B". -/
def srvB : Server := ⟨"B"⟩

/-- Oracle under which every external call succeeds. -/
def ocAll : Oracle := ⟨fun _ _ => true, fun _ _ => true⟩

/-- Oracle under which every `uploadBlob` call fails (the auth step
succeeds). -/
def ocTxFail : Oracle := ⟨fun _ _ => true, fun _ _ => false⟩

/-- Oracle under which `getUploadAuth` fails for destination "A" and every
other call succeeds. -/
def ocAuthFailA : Oracle := ⟨fun n _ => !(n == "A"), fun _ _ => true⟩

/-- Identity sanitizer (stands for an arbitrary `removeExifData`). -/
def sanId : LocalFile → LocalFile := fun f => f

/-- Page state right after mount with destinations A and B: the `useEffect`
(Upload.tsx lines 73-75) has run `clearTransfers`, no files selected, no
calls made yet. -/
def stAB : OrchState :=
  { ledger := clearTransfers [srvA, srvB] emptyLedger
    filesSel := []
    invals := []
    auths := []
    txs := []
    clears := 0 }

/-- `stAB` after the user selects one 100-byte file. -/
def stAB1 : OrchState := handleFileChange [⟨100⟩] stAB

/-- Page state after mount with the single destination A. -/
def stA : OrchState :=
  { ledger := clearTransfers [srvA] emptyLedger
    filesSel := []
    invals := []
    auths := []
    txs := []
    clears := 0 }

/-- `stA` after selecting one 100-byte file. -/
def stA1 : OrchState := handleFileChange [⟨100⟩] stA

/-- `stA1` after a fully successful batch: A's ledger entry reads
`{enabled: true, size: 100, transferred: 100}` and the selection is empty.
The ledger is not reset between batches. -/
def stCarry : OrchState := (upload ocAll sanId false [srvA] stA1).2.1

/-- `stCarry` after the user selects a second, 50-byte file: the start state
of a second batch in the same session. -/
def stCarry2 : OrchState := handleFileChange [⟨50⟩] stCarry

/-- Oracle under which `uploadBlob` succeeds for the file at position 0 and
fails from position 1 on. -/
def ocTxFail1 : Oracle := ⟨fun _ _ => true, fun _ j => j == 0⟩

/-- `stAB1` after the user unchecks destination "B": B's ledger entry is
`{enabled: false, size: 0, transferred: 0}`. -/
def stABdis : OrchState := { stAB1 with ledger := toggleTransfer "B" false stAB1.ledger }

/-- Relation between a state and a later state of the same run of the file
loop of destination `d`: the ghost logs grew only by calls for `d`, the
ledger is untouched outside `d`, the `size`/`enabled`/presence of every entry
is untouched, and `d`'s `transferred` grew by at most `b`. -/
def FrameQ (d : String) (b : Nat) (s t : OrchState) : Prop :=
  t.invals = s.invals ∧ t.clears = s.clears ∧ t.filesSel = s.filesSel ∧
  (∀ n, n ≠ d → t.ledger n = s.ledger n) ∧
  (∀ n, szOf t.ledger n = szOf s.ledger n) ∧
  (∀ n, enabledIn t.ledger n = enabledIn s.ledger n) ∧
  (∀ n, (t.ledger n).isSome = (s.ledger n).isSome) ∧
  (trOf s.ledger d ≤ trOf t.ledger d ∧ trOf t.ledger d ≤ trOf s.ledger d + b) ∧
  (∃ l, t.auths = s.auths ++ l ∧ ∀ e ∈ l, e.1 = d) ∧
  (∃ l, t.txs = s.txs ++ l ∧ ∀ e ∈ l, e.1 = d)

/-- One observable ledger step of a batch over the sanitized files `fs`:
every entry's `transferred` either stays put or grows by the size of one of
the batch's files (the successful-transfer increment of Upload.tsx line 60). -/
def uploadStep (fs : List LocalFile) (a b : OrchState) : Prop :=
  ∀ n, trOf b.ledger n = trOf a.ledger n ∨
    ∃ f ∈ fs, trOf b.ledger n = trOf a.ledger n + f.size

/-! ### Basic lemmas about the ledger primitives -/

lemma insertL_same (name : String) (t : TransferStats) (g : Ledger) :
    insertL name t g name = some t := by
  simp [insertL]

lemma insertL_other (name : String) (t : TransferStats) (g : Ledger)
    (k : String) (h : k ≠ name) : insertL name t g k = g k := by
  simp [insertL, h]

lemma enabledIn_isSome (g : Ledger) (n : String) (h : enabledIn g n = true) :
    (g n).isSome = true := by
  unfold enabledIn at h
  cases hg : g n with
  | none => rw [hg] at h; simp at h
  | some t => simp

lemma sumSizes_foldl (fs : List LocalFile) :
    ∀ a : Nat, fs.foldl (fun acc f => acc + f.size) a = a + sumSizes fs := by
  induction fs with
  | nil => intro a; simp [sumSizes]
  | cons f rest ih =>
    intro a
    have h1 : List.foldl (fun acc f => acc + f.size) a (f :: rest)
        = List.foldl (fun acc f => acc + f.size) (a + f.size) rest := rfl
    have h2 : sumSizes (f :: rest)
        = List.foldl (fun acc f => acc + f.size) (0 + f.size) rest := rfl
    rw [h1, ih (a + f.size), h2, ih (0 + f.size)]
    omega

lemma sumSizes_cons (f : LocalFile) (fs : List LocalFile) :
    sumSizes (f :: fs) = f.size + sumSizes fs := by
  have h2 : sumSizes (f :: fs)
      = List.foldl (fun acc f => acc + f.size) (0 + f.size) fs := rfl
  rw [h2, sumSizes_foldl fs (0 + f.size)]
  omega

lemma incTransferred_other (d : String) (sz : Nat) (g : Ledger) (n : String)
    (h : n ≠ d) : incTransferred d sz g n = g n := by
  cases hg : g d with
  | none => simp [incTransferred, hg]
  | some t => simp [incTransferred, hg, insertL, h]

lemma incTransferred_szOf (d : String) (sz : Nat) (g : Ledger) (n : String) :
    szOf (incTransferred d sz g) n = szOf g n := by
  by_cases h : n = d
  · subst h
    cases hg : g n with
    | none => simp [szOf, incTransferred, hg]
    | some t => simp [szOf, incTransferred, hg, insertL]
  · rw [szOf, incTransferred_other d sz g n h, szOf]

lemma incTransferred_enabledIn (d : String) (sz : Nat) (g : Ledger) (n : String) :
    enabledIn (incTransferred d sz g) n = enabledIn g n := by
  by_cases h : n = d
  · subst h
    cases hg : g n with
    | none => simp [enabledIn, incTransferred, hg]
    | some t => simp [enabledIn, incTransferred, hg, insertL]
  · rw [enabledIn, incTransferred_other d sz g n h, enabledIn]

lemma incTransferred_isSome (d : String) (sz : Nat) (g : Ledger) (n : String) :
    ((incTransferred d sz g) n).isSome = (g n).isSome := by
  by_cases h : n = d
  · subst h
    cases hg : g n with
    | none => simp [incTransferred, hg]
    | some t => simp [incTransferred, hg, insertL]
  · rw [incTransferred_other d sz g n h]

lemma incTransferred_trOf_self (d : String) (sz : Nat) (g : Ledger)
    (h : (g d).isSome = true) : trOf (incTransferred d sz g) d = trOf g d + sz := by
  cases hg : g d with
  | none => rw [hg] at h; simp at h
  | some t => simp [trOf, incTransferred, hg, insertL]

lemma incTransferred_trOf_none (d : String) (sz : Nat) (g : Ledger)
    (h : (g d).isSome = false) : trOf (incTransferred d sz g) d = trOf g d := by
  cases hg : g d with
  | none => simp [trOf, incTransferred, hg]
  | some t => rw [hg] at h; simp at h

/-! ### Lemmas about the sizing pass -/

lemma setSizes_cons (srv : Server) (rest : List Server) (total : Nat) (g : Ledger) :
    setSizes (srv :: rest) total g = setSizes rest total (setSizeStep total g srv) := rfl

lemma setSizeStep_other (total : Nat) (g : Ledger) (srv : Server) (n : String)
    (h : srv.name ≠ n) : setSizeStep total g srv n = g n := by
  cases hg : g srv.name with
  | none => simp [setSizeStep, hg]
  | some t =>
    by_cases he : t.enabled
    · have hrw : setSizeStep total g srv = insertL srv.name { t with size := total } g := by
        simp [setSizeStep, hg, he]
      rw [hrw, insertL_other _ _ _ _ (fun hh => h hh.symm)]
    · simp [setSizeStep, hg, he]

lemma setSizeStep_trOf (total : Nat) (g : Ledger) (srv : Server) (n : String) :
    trOf (setSizeStep total g srv) n = trOf g n := by
  by_cases h : srv.name = n
  · subst h
    cases hg : g srv.name with
    | none => simp [trOf, setSizeStep, hg]
    | some t =>
      by_cases he : t.enabled
      · simp [trOf, setSizeStep, hg, he, insertL]
      · simp [trOf, setSizeStep, hg, he]
  · rw [trOf, setSizeStep_other total g srv n h, trOf]

lemma setSizeStep_enabledIn (total : Nat) (g : Ledger) (srv : Server) (n : String) :
    enabledIn (setSizeStep total g srv) n = enabledIn g n := by
  by_cases h : srv.name = n
  · subst h
    cases hg : g srv.name with
    | none => simp [enabledIn, setSizeStep, hg]
    | some t =>
      by_cases he : t.enabled
      · simp [enabledIn, setSizeStep, hg, he, insertL]
      · simp [enabledIn, setSizeStep, hg, he]
  · rw [enabledIn, setSizeStep_other total g srv n h, enabledIn]

lemma setSizeStep_isSome (total : Nat) (g : Ledger) (srv : Server) (n : String) :
    ((setSizeStep total g srv) n).isSome = (g n).isSome := by
  by_cases h : srv.name = n
  · subst h
    cases hg : g srv.name with
    | none => simp [setSizeStep, hg]
    | some t =>
      by_cases he : t.enabled
      · simp [setSizeStep, hg, he, insertL]
      · simp [setSizeStep, hg, he]
  · rw [setSizeStep_other total g srv n h]

lemma setSizeStep_enabledFalse (total : Nat) (g : Ledger) (srv : Server) (n : String)
    (h : enabledIn g n = false) : setSizeStep total g srv n = g n := by
  by_cases hn : srv.name = n
  · subst hn
    cases hg : g srv.name with
    | none => simp [setSizeStep, hg]
    | some t =>
      have he : t.enabled = false := by
        rw [enabledIn, hg] at h; exact h
      simp [setSizeStep, hg, he]
  · exact setSizeStep_other total g srv n hn

lemma setSizeStep_self (total : Nat) (g : Ledger) (srv : Server) (t0 : TransferStats)
    (hg : g srv.name = some t0) (he : t0.enabled = true) :
    setSizeStep total g srv srv.name = some ⟨true, total, t0.transferred⟩ := by
  have : ({ t0 with size := total } : TransferStats) = ⟨true, total, t0.transferred⟩ := by
    cases t0; simp_all
  simp [setSizeStep, hg, he, insertL, this]

lemma setSizes_trOf (servers : List Server) (total : Nat) :
    ∀ (g : Ledger) (n : String), trOf (setSizes servers total g) n = trOf g n := by
  induction servers with
  | nil => intro g n; rfl
  | cons srv rest ih =>
    intro g n
    rw [setSizes_cons, ih, setSizeStep_trOf]

lemma setSizes_enabledIn (servers : List Server) (total : Nat) :
    ∀ (g : Ledger) (n : String), enabledIn (setSizes servers total g) n = enabledIn g n := by
  induction servers with
  | nil => intro g n; rfl
  | cons srv rest ih =>
    intro g n
    rw [setSizes_cons, ih, setSizeStep_enabledIn]

lemma setSizes_isSome (servers : List Server) (total : Nat) :
    ∀ (g : Ledger) (n : String), ((setSizes servers total g) n).isSome = (g n).isSome := by
  induction servers with
  | nil => intro g n; rfl
  | cons srv rest ih =>
    intro g n
    rw [setSizes_cons, ih, setSizeStep_isSome]

lemma setSizes_enabledFalse (servers : List Server) (total : Nat) :
    ∀ (g : Ledger) (n : String), enabledIn g n = false →
      setSizes servers total g n = g n := by
  induction servers with
  | nil => intro g n _; rfl
  | cons srv rest ih =>
    intro g n h
    rw [setSizes_cons, ih _ n (by rw [setSizeStep_enabledIn]; exact h),
      setSizeStep_enabledFalse total g srv n h]

lemma setSizes_notMem (servers : List Server) (total : Nat) :
    ∀ (g : Ledger) (n : String), (∀ srv ∈ servers, srv.name ≠ n) →
      setSizes servers total g n = g n := by
  induction servers with
  | nil => intro g n _; rfl
  | cons srv rest ih =>
    intro g n h
    rw [setSizes_cons, ih _ n (fun x hx => h x (List.mem_cons_of_mem srv hx)),
      setSizeStep_other total g srv n (h srv (List.mem_cons_self srv rest))]

lemma setSizes_enabledTrue (servers : List Server) (total : Nat) :
    ∀ (g : Ledger) (n : String) (t0 : TransferStats), g n = some t0 →
      t0.enabled = true → (∃ srv ∈ servers, srv.name = n) →
      setSizes servers total g n = some ⟨true, total, t0.transferred⟩ := by
  induction servers with
  | nil =>
    intro g n t0 _ _ hmem
    simp at hmem
  | cons srv rest ih =>
    intro g n t0 hg he hmem
    rw [setSizes_cons]
    by_cases hn : srv.name = n
    · have hstep : setSizeStep total g srv n = some ⟨true, total, t0.transferred⟩ := by
        rw [← hn] at hg ⊢
        exact setSizeStep_self total g srv t0 hg he
      by_cases hrest : ∃ x ∈ rest, x.name = n
      · exact ih _ n ⟨true, total, t0.transferred⟩ hstep rfl hrest
      · rw [setSizes_notMem rest total _ n
          (fun x hx hxn => hrest ⟨x, hx, hxn⟩), hstep]
    · have hg2 : setSizeStep total g srv n = some t0 := by
        rw [setSizeStep_other total g srv n hn, hg]
      rcases hmem with ⟨x, hx, hxn⟩
      rcases List.mem_cons.mp hx with hx1 | hx2
      · exact absurd (hx1 ▸ hxn) hn
      · exact ih _ n t0 hg2 he ⟨x, hx2, hxn⟩

/-! ### The frame calculus for one destination's file loop -/

lemma FrameQ_refl (d : String) (b : Nat) (s : OrchState) : FrameQ d b s s := by
  refine ⟨rfl, rfl, rfl, fun n _ => rfl, fun n => rfl, fun n => rfl, fun n => rfl,
    ⟨Nat.le_refl _, Nat.le_add_right _ _⟩, ⟨[], ?_, ?_⟩, ⟨[], ?_, ?_⟩⟩
  · rw [List.append_nil]
  · intro e he; simp at he
  · rw [List.append_nil]
  · intro e he; simp at he

lemma FrameQ_mono (d : String) (b b' : Nat) (s t : OrchState) (hb : b ≤ b')
    (h : FrameQ d b s t) : FrameQ d b' s t := by
  obtain ⟨h1, h2, h3, h4, h5, h6, h7, ⟨h8, h9⟩, h10, h11⟩ := h
  exact ⟨h1, h2, h3, h4, h5, h6, h7,
    ⟨h8, Nat.le_trans h9 (Nat.add_le_add_left hb _)⟩, h10, h11⟩

lemma FrameQ_trans (d : String) (b1 b2 : Nat) (s u t : OrchState)
    (h : FrameQ d b1 s u) (h' : FrameQ d b2 u t) : FrameQ d (b1 + b2) s t := by
  obtain ⟨h1, h2, h3, h4, h5, h6, h7, ⟨h8, h9⟩, ⟨la, hla, hlaA⟩, ⟨lt, hlt, hltA⟩⟩ := h
  obtain ⟨g1, g2, g3, g4, g5, g6, g7, ⟨g8, g9⟩, ⟨lb, hlb, hlbA⟩, ⟨lu, hlu, hluA⟩⟩ := h'
  refine ⟨g1.trans h1, g2.trans h2, g3.trans h3,
    fun n hn => (g4 n hn).trans (h4 n hn),
    fun n => (g5 n).trans (h5 n), fun n => (g6 n).trans (h6 n),
    fun n => (g7 n).trans (h7 n),
    ⟨Nat.le_trans h8 g8, ?_⟩,
    ⟨la ++ lb, ?_, ?_⟩, ⟨lt ++ lu, ?_, ?_⟩⟩
  · calc trOf t.ledger d ≤ trOf u.ledger d + b2 := g9
      _ ≤ (trOf s.ledger d + b1) + b2 := Nat.add_le_add_right h9 _
      _ = trOf s.ledger d + (b1 + b2) := Nat.add_assoc _ _ _
  · rw [hlb, hla, List.append_assoc]
  · intro e he
    rcases List.mem_append.mp he with h | h
    · exact hlaA e h
    · exact hlbA e h
  · rw [hlu, hlt, List.append_assoc]
  · intro e he
    rcases List.mem_append.mp he with h | h
    · exact hltA e h
    · exact hluA e h

lemma FrameQ_auth (d : String) (b k : Nat) (s : OrchState) :
    FrameQ d b s { s with auths := s.auths ++ [(d, k)] } := by
  refine ⟨rfl, rfl, rfl, fun n _ => rfl, fun n => rfl, fun n => rfl, fun n => rfl,
    ⟨Nat.le_refl _, Nat.le_add_right _ _⟩, ⟨[(d, k)], rfl, ?_⟩, ⟨[], ?_, ?_⟩⟩
  · intro e he; simp at he; rw [he]
  · rw [List.append_nil]
  · intro e he; simp at he

lemma FrameQ_tx (d : String) (b k : Nat) (s : OrchState) :
    FrameQ d b s { s with txs := s.txs ++ [(d, k)] } := by
  refine ⟨rfl, rfl, rfl, fun n _ => rfl, fun n => rfl, fun n => rfl, fun n => rfl,
    ⟨Nat.le_refl _, Nat.le_add_right _ _⟩, ⟨[], ?_, ?_⟩, ⟨[(d, k)], rfl, ?_⟩⟩
  · rw [List.append_nil]
  · intro e he; simp at he
  · intro e he; simp at he; rw [he]

lemma FrameQ_inc (d : String) (b sz : Nat) (s : OrchState) (hb : sz ≤ b) :
    FrameQ d b s { s with ledger := incTransferred d sz s.ledger } := by
  refine ⟨rfl, rfl, rfl,
    fun n hn => incTransferred_other d sz s.ledger n hn,
    fun n => incTransferred_szOf d sz s.ledger n,
    fun n => incTransferred_enabledIn d sz s.ledger n,
    fun n => incTransferred_isSome d sz s.ledger n,
    ⟨?_, ?_⟩, ⟨[], ?_, ?_⟩, ⟨[], ?_, ?_⟩⟩
  · by_cases h : (s.ledger d).isSome
    · rw [incTransferred_trOf_self d sz s.ledger h]
      exact Nat.le_add_right _ _
    · rw [incTransferred_trOf_none d sz s.ledger (Bool.not_eq_true _ ▸ h)]
  · by_cases h : (s.ledger d).isSome
    · rw [incTransferred_trOf_self d sz s.ledger h]
      exact Nat.add_le_add_left hb _
    · rw [incTransferred_trOf_none d sz s.ledger (Bool.not_eq_true _ ▸ h)]
      exact Nat.le_add_right _ _
  · rw [List.append_nil]
  · intro e he; simp at he
  · rw [List.append_nil]
  · intro e he; simp at he

/-- Master structural lemma for the inner file loop (Upload.tsx lines 56-62):
every intermediate state and the final state of a run of `fileLoop` for
destination `d` over files `fs` are `FrameQ`-related to the start state with
budget `sumSizes fs`. -/
lemma fileLoop_facts (oc : Oracle) (d : String) :
    ∀ (fs : List LocalFile) (k : Nat) (s : OrchState),
      (∀ t ∈ (fileLoop oc d fs k s).1, FrameQ d (sumSizes fs) s t) ∧
      FrameQ d (sumSizes fs) s (fileLoop oc d fs k s).2.1 := by
  intro fs
  induction fs with
  | nil =>
    intro k s
    constructor
    · intro t ht; simp [fileLoop] at ht
    · exact FrameQ_refl d _ s
  | cons f rest ih =>
    intro k s
    have hb : sumSizes (f :: rest) = f.size + sumSizes rest := sumSizes_cons f rest
    by_cases ha : oc.authOk d k
    · by_cases htx : oc.txOk d k
      · -- both calls succeed: record both, increment, recurse
        have hunfold : fileLoop oc d (f :: rest) k s =
            (({ s with auths := s.auths ++ [(d, k)] } ::
              { s with auths := s.auths ++ [(d, k)], txs := s.txs ++ [(d, k)] } ::
              { s with auths := s.auths ++ [(d, k)], txs := s.txs ++ [(d, k)],
                       ledger := incTransferred d f.size s.ledger } ::
              (fileLoop oc d rest (k + 1)
                { s with auths := s.auths ++ [(d, k)], txs := s.txs ++ [(d, k)],
                         ledger := incTransferred d f.size s.ledger }).1),
             (fileLoop oc d rest (k + 1)
                { s with auths := s.auths ++ [(d, k)], txs := s.txs ++ [(d, k)],
                         ledger := incTransferred d f.size s.ledger }).2) := by
          simp [fileLoop, ha, htx]
        set s1 := { s with auths := s.auths ++ [(d, k)] } with hs1
        set s2 := { s with auths := s.auths ++ [(d, k)], txs := s.txs ++ [(d, k)] } with hs2
        set s3 := { s with auths := s.auths ++ [(d, k)], txs := s.txs ++ [(d, k)],
                           ledger := incTransferred d f.size s.ledger } with hs3
        have q1 : FrameQ d (sumSizes (f :: rest)) s s1 := FrameQ_auth d _ k s
        have q2 : FrameQ d (sumSizes (f :: rest)) s s2 := by
          have := FrameQ_trans d 0 (sumSizes (f :: rest)) s s1 s2
            (FrameQ_auth d 0 k s) (FrameQ_tx d _ k s1)
          rwa [Nat.zero_add] at this
        have q3 : FrameQ d f.size s s3 := by
          have h0 : FrameQ d 0 s s2 := by
            have := FrameQ_trans d 0 0 s s1 s2 (FrameQ_auth d 0 k s) (FrameQ_tx d 0 k s1)
            rwa [Nat.zero_add] at this
          have := FrameQ_trans d 0 f.size s s2 s3 h0
            (FrameQ_inc d f.size f.size s2 (Nat.le_refl _))
          rwa [Nat.zero_add] at this
        have q3' : FrameQ d (sumSizes (f :: rest)) s s3 :=
          FrameQ_mono d f.size _ s s3 (hb ▸ Nat.le_add_right _ _) q3
        obtain ⟨ihtr, ihfin⟩ := ih (k + 1) s3
        rw [hunfold]
        constructor
        · intro t ht
          rcases List.mem_cons.mp ht with h1 | ht
          · subst h1; exact q1
          rcases List.mem_cons.mp ht with h2 | ht
          · subst h2; exact q2
          rcases List.mem_cons.mp ht with h3 | ht
          · subst h3; exact q3'
          have := FrameQ_trans d f.size (sumSizes rest) s s3 t q3 (ihtr t ht)
          rwa [← hb] at this
        · have := FrameQ_trans d f.size (sumSizes rest) s s3 _ q3 ihfin
          rwa [← hb] at this
      · -- transport fails: record both calls, stop
        have hunfold : fileLoop oc d (f :: rest) k s =
            ([{ s with auths := s.auths ++ [(d, k)] },
              { s with auths := s.auths ++ [(d, k)], txs := s.txs ++ [(d, k)] }],
             { s with auths := s.auths ++ [(d, k)], txs := s.txs ++ [(d, k)] }, false) := by
          simp [fileLoop, ha, htx]
        have q1 : FrameQ d (sumSizes (f :: rest)) s
            { s with auths := s.auths ++ [(d, k)] } := FrameQ_auth d _ k s
        have q2 : FrameQ d (sumSizes (f :: rest)) s
            { s with auths := s.auths ++ [(d, k)], txs := s.txs ++ [(d, k)] } := by
          have := FrameQ_trans d 0 (sumSizes (f :: rest)) s _ _
            (FrameQ_auth d 0 k s) (FrameQ_tx d _ k { s with auths := s.auths ++ [(d, k)] })
          rwa [Nat.zero_add] at this
        rw [hunfold]
        constructor
        · intro t ht
          rcases List.mem_cons.mp ht with h1 | ht
          · subst h1; exact q1
          rcases List.mem_cons.mp ht with h2 | ht
          · subst h2; exact q2
          simp at ht
        · exact q2
    · -- authorization fails: record the auth call, stop
      have hunfold : fileLoop oc d (f :: rest) k s =
          ([{ s with auths := s.auths ++ [(d, k)] }],
           { s with auths := s.auths ++ [(d, k)] }, false) := by
        simp [fileLoop, ha]
      have q1 : FrameQ d (sumSizes (f :: rest)) s
          { s with auths := s.auths ++ [(d, k)] } := FrameQ_auth d _ k s
      rw [hunfold]
      constructor
      · intro t ht
        rcases List.mem_cons.mp ht with h1 | ht
        · subst h1; exact q1
        simp at ht
      · exact q1

/-! ### Success and failure shapes of the loops -/

lemma fileLoop_allOk (oc : Oracle) (d : String)
    (ha : ∀ j, oc.authOk d j = true) (ht : ∀ j, oc.txOk d j = true) :
    ∀ (fs : List LocalFile) (k : Nat) (s : OrchState),
      (fileLoop oc d fs k s).2.2 = true := by
  intro fs
  induction fs with
  | nil => intro k s; rfl
  | cons f rest ih =>
    intro k s
    simp only [fileLoop, ha k, ht k, if_true]
    exact ih (k + 1) _

/-- A rejection inside one destination's file loop propagates out of the
whole `upload` call: the result of the destination loop is exactly the
result of the failing file loop — the remaining servers (`rest`) are never
consulted, and no invalidation or file-clear happens. -/
lemma destsLoop_failHead (oc : Oracle) (files : List LocalFile) (srv : Server)
    (rest : List Server) (s : OrchState)
    (hen : enabledIn s.ledger srv.name = true)
    (hfail : (fileLoop oc srv.name files 0 s).2.2 = false) :
    destsLoop oc files (srv :: rest) s
      = ((fileLoop oc srv.name files 0 s).1, (fileLoop oc srv.name files 0 s).2.1, false) := by
  have h1 : destsLoop oc files (srv :: rest) s = fileLoop oc srv.name files 0 s := by
    simp [destsLoop, hen, hfail]
  rw [h1, ← hfail]

lemma destsLoop_allOk (oc : Oracle) (files : List LocalFile)
    (hok : ∀ n j, oc.authOk n j = true ∧ oc.txOk n j = true) :
    ∀ (servers : List Server) (s : OrchState),
      (destsLoop oc files servers s).2.1.invals
        = s.invals ++ (servers.filter (fun srv => enabledIn s.ledger srv.name)).map Server.name ∧
      (destsLoop oc files servers s).2.1.clears
        = s.clears + (servers.filter (fun srv => enabledIn s.ledger srv.name)).length ∧
      (destsLoop oc files servers s).2.1.filesSel
        = (if (servers.filter (fun srv => enabledIn s.ledger srv.name)).length = 0
           then s.filesSel else []) ∧
      (destsLoop oc files servers s).2.2 = true := by
  intro servers
  induction servers with
  | nil => intro s; simp [destsLoop]
  | cons srv rest ih =>
    intro s
    by_cases hen : enabledIn s.ledger srv.name
    · have rok : (fileLoop oc srv.name files 0 s).2.2 = true :=
        fileLoop_allOk oc srv.name (fun j => (hok srv.name j).1)
          (fun j => (hok srv.name j).2) files 0 s
      obtain ⟨_, hfin⟩ := fileLoop_facts oc srv.name files 0 s
      obtain ⟨hi, hc, hf, _, _, henp, _, _, _, _⟩ := hfin
      set r1 := (fileLoop oc srv.name files 0 s).2.1 with hr1
      set s3 : OrchState :=
        { r1 with invals := r1.invals ++ [srv.name], filesSel := [],
                  clears := r1.clears + 1 } with hs3
      have hd : destsLoop oc files (srv :: rest) s
          = ((fileLoop oc srv.name files 0 s).1
              ++ { r1 with invals := r1.invals ++ [srv.name] } :: s3 :: (destsLoop oc files rest s3).1,
             (destsLoop oc files rest s3).2) := by
        simp [destsLoop, hen, rok, hs3]
      have hfc : rest.filter (fun srv2 => enabledIn s3.ledger srv2.name)
          = rest.filter (fun srv2 => enabledIn s.ledger srv2.name) := by
        apply List.filter_congr
        intro x _
        have : s3.ledger = r1.ledger := rfl
        rw [this, henp x.name]
      obtain ⟨ih1, ih2, ih3, ih4⟩ := ih s3
      rw [hfc] at ih1 ih2 ih3
      have hfilter : (srv :: rest).filter (fun srv2 => enabledIn s.ledger srv2.name)
          = srv :: rest.filter (fun srv2 => enabledIn s.ledger srv2.name) := by
        simp [List.filter_cons, hen]
      rw [hd]
      refine ⟨?_, ?_, ?_, ih4⟩
      · show (destsLoop oc files rest s3).2.1.invals = _
        rw [ih1, hfilter]
        have : s3.invals = s.invals ++ [srv.name] := by rw [hs3]; exact congrArg (· ++ [srv.name]) hi
        rw [this, List.append_assoc]
        rfl
      · show (destsLoop oc files rest s3).2.1.clears = _
        rw [ih2, hfilter]
        have : s3.clears = s.clears + 1 := by rw [hs3]; exact congrArg (· + 1) hc
        rw [this]
        simp [Nat.add_assoc, Nat.add_comm 1]
      · show (destsLoop oc files rest s3).2.1.filesSel = _
        rw [ih3, hfilter]
        have h3f : s3.filesSel = [] := rfl
        rw [h3f]
        have : (srv :: rest.filter (fun srv2 => enabledIn s.ledger srv2.name)).length ≠ 0 := by
          simp
        rw [if_neg this]
        split <;> rfl
    · have hen' : enabledIn s.ledger srv.name = false := by
        rw [Bool.not_eq_true] at hen; exact hen
      have hd : destsLoop oc files (srv :: rest) s = destsLoop oc files rest s := by
        simp [destsLoop, hen']
      have hfilter : (srv :: rest).filter (fun srv2 => enabledIn s.ledger srv2.name)
          = rest.filter (fun srv2 => enabledIn s.ledger srv2.name) := by
        simp [List.filter_cons, hen']
      rw [hd, hfilter]
      exact ih s

/-- If the transport call fails on the file at position `i` (and both calls
succeed on every earlier file), the file loop ends with the throw flag set
and the destination's `transferred` advanced by exactly the sizes of the
files before position `i`. -/
lemma fileLoop_txFail (oc : Oracle) (d : String) :
    ∀ (fs : List LocalFile) (i k : Nat) (s : OrchState),
      i < fs.length →
      (∀ j, j < i → oc.authOk d (k + j) = true ∧ oc.txOk d (k + j) = true) →
      oc.authOk d (k + i) = true → oc.txOk d (k + i) = false →
      (s.ledger d).isSome = true →
      (fileLoop oc d fs k s).2.2 = false ∧
      trOf (fileLoop oc d fs k s).2.1.ledger d
        = trOf s.ledger d + sumSizes (fs.take i) := by
  intro fs
  induction fs with
  | nil => intro i k s hi; simp at hi
  | cons f rest ih =>
    intro i k s hi hok hai hti hsome
    cases i with
    | zero =>
      have ha : oc.authOk d k = true := by simpa using hai
      have ht : oc.txOk d k = false := by simpa using hti
      simp only [fileLoop, ha, if_true, ht, if_false]
      exact ⟨rfl, by simp [sumSizes]⟩
    | succ i2 =>
      have h0 := hok 0 (Nat.succ_pos i2)
      have ha : oc.authOk d k = true := by simpa using h0.1
      have ht : oc.txOk d k = true := by simpa using h0.2
      set s3 : OrchState :=
        { s with auths := s.auths ++ [(d, k)], txs := s.txs ++ [(d, k)],
                 ledger := incTransferred d f.size s.ledger } with hs3
      have hunfold : fileLoop oc d (f :: rest) k s =
          (({ s with auths := s.auths ++ [(d, k)] } ::
            { s with auths := s.auths ++ [(d, k)], txs := s.txs ++ [(d, k)] } ::
            s3 :: (fileLoop oc d rest (k + 1) s3).1),
           (fileLoop oc d rest (k + 1) s3).2) := by
        simp [fileLoop, ha, ht, hs3]
      have hsome3 : (s3.ledger d).isSome = true := by
        have : s3.ledger = incTransferred d f.size s.ledger := rfl
        rw [this, incTransferred_isSome]
        exact hsome
      have htr3 : trOf s3.ledger d = trOf s.ledger d + f.size := by
        have : s3.ledger = incTransferred d f.size s.ledger := rfl
        rw [this, incTransferred_trOf_self d f.size s.ledger hsome]
      have hok2 : ∀ j, j < i2 → oc.authOk d ((k + 1) + j) = true ∧ oc.txOk d ((k + 1) + j) = true := by
        intro j hj
        have harith : (k + 1) + j = k + (j + 1) := by omega
        rw [harith]
        exact hok (j + 1) (Nat.succ_lt_succ hj)
      have hai2 : oc.authOk d ((k + 1) + i2) = true := by
        have harith : (k + 1) + i2 = k + (i2 + 1) := by omega
        rw [harith]; exact hai
      have hti2 : oc.txOk d ((k + 1) + i2) = false := by
        have harith : (k + 1) + i2 = k + (i2 + 1) := by omega
        rw [harith]; exact hti
      have hi2 : i2 < rest.length := Nat.lt_of_succ_lt_succ (by simpa using hi)
      obtain ⟨ihok, ihtr⟩ := ih i2 (k + 1) s3 hi2 hok2 hai2 hti2 hsome3
      rw [hunfold]
      refine ⟨ihok, ?_⟩
      show trOf (fileLoop oc d rest (k + 1) s3).2.1.ledger d = _
      rw [ihtr, htr3, List.take_succ_cons, sumSizes_cons]
      omega

/-- Entries whose name is carried by no enabled server are never modified by
the destination loop (neither in any intermediate state nor at the end). -/
lemma destsLoop_untouched (oc : Oracle) (files : List LocalFile) (n : String) :
    ∀ (servers : List Server) (s : OrchState),
      (∀ srv ∈ servers, enabledIn s.ledger srv.name = true → srv.name ≠ n) →
      (∀ t ∈ (destsLoop oc files servers s).1, t.ledger n = s.ledger n) ∧
      (destsLoop oc files servers s).2.1.ledger n = s.ledger n := by
  intro servers
  induction servers with
  | nil => intro s _; exact ⟨fun t ht => by simp [destsLoop] at ht, rfl⟩
  | cons srv rest ih =>
    intro s h
    by_cases hen : enabledIn s.ledger srv.name
    · have hne : srv.name ≠ n := h srv (List.mem_cons_self srv rest) hen
      obtain ⟨htr, hfin⟩ := fileLoop_facts oc srv.name files 0 s
      have hframe : ∀ t, FrameQ srv.name (sumSizes files) s t → t.ledger n = s.ledger n := by
        intro t hq
        obtain ⟨_, _, _, h4, _, _, _, _, _, _⟩ := hq
        exact h4 n (fun hnn => hne hnn.symm)
      by_cases rok : (fileLoop oc srv.name files 0 s).2.2
      · set r1 := (fileLoop oc srv.name files 0 s).2.1 with hr1
        set s3 : OrchState :=
          { r1 with invals := r1.invals ++ [srv.name], filesSel := [],
                    clears := r1.clears + 1 } with hs3
        have hd : destsLoop oc files (srv :: rest) s
            = ((fileLoop oc srv.name files 0 s).1
                ++ { r1 with invals := r1.invals ++ [srv.name] } :: s3 :: (destsLoop oc files rest s3).1,
               (destsLoop oc files rest s3).2) := by
          simp [destsLoop, hen, rok, hs3]
        have hr1n : r1.ledger n = s.ledger n := hframe r1 hfin
        have hs3n : s3.ledger n = s.ledger n := hr1n
        have henp : ∀ m, enabledIn s3.ledger m = enabledIn s.ledger m := by
          intro m
          obtain ⟨_, _, _, _, _, h6, _, _, _, _⟩ := hfin
          exact h6 m
        obtain ⟨ihtr, ihfin⟩ := ih s3 (by
          intro x hx hxe
          exact h x (List.mem_cons_of_mem srv hx) (by rw [← henp x.name]; exact hxe))
        rw [hd]
        constructor
        · intro t ht
          rcases List.mem_append.mp ht with hmem | hmem
          · exact hframe t (htr t hmem)
          rcases List.mem_cons.mp hmem with h1 | hmem
          · subst h1; exact hr1n
          rcases List.mem_cons.mp hmem with h2 | hmem
          · subst h2; exact hs3n
          · rw [ihtr t hmem]; exact hs3n
        · show (destsLoop oc files rest s3).2.1.ledger n = s.ledger n
          rw [ihfin]; exact hs3n
      · have rok' : (fileLoop oc srv.name files 0 s).2.2 = false := by
          rw [Bool.not_eq_true] at rok; exact rok
        rw [destsLoop_failHead oc files srv rest s hen rok']
        exact ⟨fun t ht => hframe t (htr t ht), hframe _ hfin⟩
    · have hen' : enabledIn s.ledger srv.name = false := by
        rw [Bool.not_eq_true] at hen; exact hen
      have hd : destsLoop oc files (srv :: rest) s = destsLoop oc files rest s := by
        simp [destsLoop, hen']
      rw [hd]
      exact ih s (fun x hx => h x (List.mem_cons_of_mem srv hx))

/-- Every `getUploadAuth` / `uploadBlob` call issued by the destination loop
names a destination that was enabled at loop start. -/
lemma destsLoop_calls (oc : Oracle) (files : List LocalFile) :
    ∀ (servers : List Server) (s : OrchState),
      (∃ l, (destsLoop oc files servers s).2.1.auths = s.auths ++ l ∧
        ∀ e ∈ l, enabledIn s.ledger e.1 = true) ∧
      (∃ l, (destsLoop oc files servers s).2.1.txs = s.txs ++ l ∧
        ∀ e ∈ l, enabledIn s.ledger e.1 = true) := by
  intro servers
  induction servers with
  | nil =>
    intro s
    exact ⟨⟨[], by simp [destsLoop], fun e he => by simp at he⟩,
      ⟨[], by simp [destsLoop], fun e he => by simp at he⟩⟩
  | cons srv rest ih =>
    intro s
    by_cases hen : enabledIn s.ledger srv.name
    · obtain ⟨_, hfin⟩ := fileLoop_facts oc srv.name files 0 s
      obtain ⟨_, _, _, _, _, henp, _, _, ⟨la, hla, hlaA⟩, ⟨lt, hlt, hltA⟩⟩ := hfin
      by_cases rok : (fileLoop oc srv.name files 0 s).2.2
      · set r1 := (fileLoop oc srv.name files 0 s).2.1 with hr1
        set s3 : OrchState :=
          { r1 with invals := r1.invals ++ [srv.name], filesSel := [],
                    clears := r1.clears + 1 } with hs3
        have hd : destsLoop oc files (srv :: rest) s
            = ((fileLoop oc srv.name files 0 s).1
                ++ { r1 with invals := r1.invals ++ [srv.name] } :: s3 :: (destsLoop oc files rest s3).1,
               (destsLoop oc files rest s3).2) := by
          simp [destsLoop, hen, rok, hs3]
        obtain ⟨⟨lb, hlb, hlbA⟩, ⟨lu, hlu, hluA⟩⟩ := ih s3
        rw [hd]
        constructor
        · refine ⟨la ++ lb, ?_, ?_⟩
          · show (destsLoop oc files rest s3).2.1.auths = _
            have h3a : s3.auths = s.auths ++ la := hla
            rw [hlb, h3a, List.append_assoc]
          · intro e he
            rcases List.mem_append.mp he with h | h
            · rw [hlaA e h]; exact hen
            · have := hlbA e h
              rwa [show s3.ledger = r1.ledger from rfl, henp e.1] at this
        · refine ⟨lt ++ lu, ?_, ?_⟩
          · show (destsLoop oc files rest s3).2.1.txs = _
            have h3t : s3.txs = s.txs ++ lt := hlt
            rw [hlu, h3t, List.append_assoc]
          · intro e he
            rcases List.mem_append.mp he with h | h
            · rw [hltA e h]; exact hen
            · have := hluA e h
              rwa [show s3.ledger = r1.ledger from rfl, henp e.1] at this
      · have rok' : (fileLoop oc srv.name files 0 s).2.2 = false := by
          rw [Bool.not_eq_true] at rok; exact rok
        rw [destsLoop_failHead oc files srv rest s hen rok']
        constructor
        · exact ⟨la, hla, fun e he => by rw [hlaA e he]; exact hen⟩
        · exact ⟨lt, hlt, fun e he => by rw [hltA e he]; exact hen⟩
    · have hen' : enabledIn s.ledger srv.name = false := by
        rw [Bool.not_eq_true] at hen; exact hen
      have hd : destsLoop oc files (srv :: rest) s = destsLoop oc files rest s := by
        simp [destsLoop, hen']
      rw [hd]
      exact ih s

lemma trOf_congr (g g2 : Ledger) (n : String) (h : g n = g2 n) :
    trOf g n = trOf g2 n := by
  unfold trOf; rw [h]

lemma szOf_congr (g g2 : Ledger) (n : String) (h : g n = g2 n) :
    szOf g n = szOf g2 n := by
  unfold szOf; rw [h]

lemma enabledIn_congr (g g2 : Ledger) (n : String) (h : g n = g2 n) :
    enabledIn g n = enabledIn g2 n := by
  unfold enabledIn; rw [h]

/-- The per-destination ledger bound: if, at loop start, every listed
destination satisfies `transferred ≤ size` and every enabled one moreover
has room for the whole batch (`transferred + Σ sizes ≤ size`), then
`transferred ≤ size` holds for every listed destination at every
intermediate state and at the end of the destination loop.  Destination
names are assumed distinct (the data model's uniqueness of `name`). -/
lemma destsLoop_bound (oc : Oracle) (files : List LocalFile) :
    ∀ (servers : List Server) (s : OrchState),
      (servers.map Server.name).Nodup →
      (∀ srv ∈ servers, trOf s.ledger srv.name ≤ szOf s.ledger srv.name) →
      (∀ srv ∈ servers, enabledIn s.ledger srv.name = true →
        trOf s.ledger srv.name + sumSizes files ≤ szOf s.ledger srv.name) →
      (∀ t ∈ (destsLoop oc files servers s).1, ∀ srv ∈ servers,
        trOf t.ledger srv.name ≤ szOf t.ledger srv.name) ∧
      (∀ srv ∈ servers,
        trOf (destsLoop oc files servers s).2.1.ledger srv.name
          ≤ szOf (destsLoop oc files servers s).2.1.ledger srv.name) := by
  intro servers
  induction servers with
  | nil =>
    intro s _ _ _
    exact ⟨fun t ht => by simp [destsLoop] at ht, fun srv hmem => by simp at hmem⟩
  | cons srv rest ih =>
    intro s hnd hw hs
    have hnd2 := by rw [List.map_cons] at hnd; exact hnd
    obtain ⟨hnotmem, hndrest⟩ := List.nodup_cons.mp hnd2
    have hname_ne : ∀ srv2 ∈ rest, srv2.name ≠ srv.name := by
      intro srv2 hx heq
      exact hnotmem (heq ▸ List.mem_map_of_mem Server.name hx)
    by_cases hen : enabledIn s.ledger srv.name
    · have hd_bound : trOf s.ledger srv.name + sumSizes files ≤ szOf s.ledger srv.name :=
        hs srv (List.mem_cons_self srv rest) hen
      obtain ⟨htr, hfin⟩ := fileLoop_facts oc srv.name files 0 s
      have boundAt : ∀ t, FrameQ srv.name (sumSizes files) s t →
          ∀ srv2 ∈ srv :: rest, trOf t.ledger srv2.name ≤ szOf t.ledger srv2.name := by
        intro t hq srv2 hmem
        obtain ⟨_, _, _, h4, h5, _, _, ⟨_, h8b⟩, _, _⟩ := hq
        by_cases hname : srv2.name = srv.name
        · rw [hname, h5 srv.name]
          exact Nat.le_trans h8b hd_bound
        · have hentry := h4 srv2.name hname
          rw [trOf_congr _ _ _ hentry, szOf_congr _ _ _ hentry]
          exact hw srv2 hmem
      by_cases rok : (fileLoop oc srv.name files 0 s).2.2
      · set r1 := (fileLoop oc srv.name files 0 s).2.1 with hr1
        set s3 : OrchState :=
          { r1 with invals := r1.invals ++ [srv.name], filesSel := [],
                    clears := r1.clears + 1 } with hs3
        have hd : destsLoop oc files (srv :: rest) s
            = ((fileLoop oc srv.name files 0 s).1
                ++ { r1 with invals := r1.invals ++ [srv.name] } :: s3 :: (destsLoop oc files rest s3).1,
               (destsLoop oc files rest s3).2) := by
          simp [destsLoop, hen, rok, hs3]
        have henp : ∀ m, enabledIn s3.ledger m = enabledIn s.ledger m := by
          intro m
          obtain ⟨_, _, _, _, _, h6, _, _, _, _⟩ := hfin
          exact h6 m
        have hentry_rest : ∀ srv2 ∈ rest, s3.ledger srv2.name = s.ledger srv2.name := by
          intro srv2 hx
          obtain ⟨_, _, _, h4, _, _, _, _, _, _⟩ := hfin
          exact h4 srv2.name (fun hh => hname_ne srv2 hx hh)
        have hw3 : ∀ srv2 ∈ rest, trOf s3.ledger srv2.name ≤ szOf s3.ledger srv2.name := by
          intro srv2 hx
          exact boundAt r1 hfin srv2 (List.mem_cons_of_mem srv hx)
        have hs3' : ∀ srv2 ∈ rest, enabledIn s3.ledger srv2.name = true →
            trOf s3.ledger srv2.name + sumSizes files ≤ szOf s3.ledger srv2.name := by
          intro srv2 hx hxe
          rw [trOf_congr _ _ _ (hentry_rest srv2 hx), szOf_congr _ _ _ (hentry_rest srv2 hx)]
          exact hs srv2 (List.mem_cons_of_mem srv hx) (by rw [← henp srv2.name]; exact hxe)
        obtain ⟨ihtr, ihfin⟩ := ih s3 hndrest hw3 hs3'
        have huntouched := destsLoop_untouched oc files srv.name rest s3
          (fun x hx _ => hname_ne x hx)
        have hhead_tail : ∀ t ∈ (destsLoop oc files rest s3).1,
            trOf t.ledger srv.name ≤ szOf t.ledger srv.name := by
          intro t ht
          have hentry := huntouched.1 t ht
          rw [trOf_congr _ _ _ hentry, szOf_congr _ _ _ hentry]
          exact boundAt r1 hfin srv (List.mem_cons_self srv rest)
        rw [hd]
        constructor
        · intro t ht srv2 hmem
          rcases List.mem_append.mp ht with hmem2 | hmem2
          · exact boundAt t (htr t hmem2) srv2 hmem
          rcases List.mem_cons.mp hmem2 with h1 | hmem2
          · subst h1
            show trOf r1.ledger srv2.name ≤ szOf r1.ledger srv2.name
            exact boundAt r1 hfin srv2 hmem
          rcases List.mem_cons.mp hmem2 with h2 | hmem2
          · subst h2
            show trOf r1.ledger srv2.name ≤ szOf r1.ledger srv2.name
            exact boundAt r1 hfin srv2 hmem
          · rcases List.mem_cons.mp hmem with hh | hh
            · subst hh; exact hhead_tail t hmem2
            · exact ihtr t hmem2 srv2 hh
        · intro srv2 hmem
          rcases List.mem_cons.mp hmem with hh | hh
          · subst hh
            show trOf (destsLoop oc files rest s3).2.1.ledger srv2.name ≤ _
            have hentry := huntouched.2
            rw [trOf_congr _ _ _ hentry, szOf_congr _ _ _ hentry]
            exact boundAt r1 hfin srv2 (List.mem_cons_self srv2 rest)
          · exact ihfin srv2 hh
      · have rok' : (fileLoop oc srv.name files 0 s).2.2 = false := by
          rw [Bool.not_eq_true] at rok; exact rok
        rw [destsLoop_failHead oc files srv rest s hen rok']
        exact ⟨fun t ht => boundAt t (htr t ht), boundAt _ hfin⟩
    · have hen' : enabledIn s.ledger srv.name = false := by
        rw [Bool.not_eq_true] at hen; exact hen
      have hd : destsLoop oc files (srv :: rest) s = destsLoop oc files rest s := by
        simp [destsLoop, hen']
      have huntouched := destsLoop_untouched oc files srv.name rest s
        (fun x hx _ => hname_ne x hx)
      obtain ⟨ihtr, ihfin⟩ := ih s hndrest
        (fun x hx => hw x (List.mem_cons_of_mem srv hx))
        (fun x hx hxe => hs x (List.mem_cons_of_mem srv hx) hxe)
      rw [hd]
      constructor
      · intro t ht srv2 hmem
        rcases List.mem_cons.mp hmem with hh | hh
        · subst hh
          have hentry := huntouched.1 t ht
          rw [trOf_congr _ _ _ hentry, szOf_congr _ _ _ hentry]
          exact hw srv2 (List.mem_cons_self srv2 rest)
        · exact ihtr t ht srv2 hh
      · intro srv2 hmem
        rcases List.mem_cons.mp hmem with hh | hh
        · subst hh
          have hentry := huntouched.2
          rw [trOf_congr _ _ _ hentry, szOf_congr _ _ _ hentry]
          exact hw srv2 (List.mem_cons_self srv2 rest)
        · exact ihfin srv2 hh

lemma uploadStep_of_eq (fs : List LocalFile) (s t : OrchState)
    (h : ∀ n, trOf t.ledger n = trOf s.ledger n) : uploadStep fs s t :=
  fun n => Or.inl (h n)

/-- The observation points of a file loop form a chain of `uploadStep`s:
consecutive states differ at most by one successful-transfer increment of
the size of a batch file. -/
lemma fileLoop_chain (oc : Oracle) (d : String) (fsAll : List LocalFile) :
    ∀ (fs : List LocalFile) (k : Nat) (s : OrchState) (l : List OrchState),
      (∀ f ∈ fs, f ∈ fsAll) →
      List.Chain (uploadStep fsAll) (fileLoop oc d fs k s).2.1 l →
      List.Chain (uploadStep fsAll) s ((fileLoop oc d fs k s).1 ++ l) := by
  intro fs
  induction fs with
  | nil => intro k s l _ h; exact h
  | cons f rest ih =>
    intro k s l hsub hch
    by_cases ha : oc.authOk d k
    · by_cases htx : oc.txOk d k
      · set s3 : OrchState :=
          { s with auths := s.auths ++ [(d, k)], txs := s.txs ++ [(d, k)],
                   ledger := incTransferred d f.size s.ledger } with hs3
        have hunfold : fileLoop oc d (f :: rest) k s =
            (({ s with auths := s.auths ++ [(d, k)] } ::
              { s with auths := s.auths ++ [(d, k)], txs := s.txs ++ [(d, k)] } ::
              s3 :: (fileLoop oc d rest (k + 1) s3).1),
             (fileLoop oc d rest (k + 1) s3).2) := by
          simp [fileLoop, ha, htx, hs3]
        rw [hunfold] at hch ⊢
        show List.Chain (uploadStep fsAll) s
          (_ :: _ :: s3 :: ((fileLoop oc d rest (k + 1) s3).1 ++ l))
        refine List.Chain.cons (uploadStep_of_eq fsAll s _ (fun n => rfl))
          (List.Chain.cons (uploadStep_of_eq fsAll _ _ (fun n => rfl))
            (List.Chain.cons ?_ ?_))
        · -- the successful-transfer increment step
          intro n
          by_cases hn : n = d
          · subst hn
            by_cases hsome : (s.ledger n).isSome
            · refine Or.inr ⟨f, hsub f (List.mem_cons_self f rest), ?_⟩
              show trOf (incTransferred n f.size s.ledger) n = _
              rw [incTransferred_trOf_self n f.size s.ledger hsome]
            · refine Or.inl ?_
              show trOf (incTransferred n f.size s.ledger) n = _
              rw [incTransferred_trOf_none n f.size s.ledger (Bool.not_eq_true _ ▸ hsome)]
          · refine Or.inl ?_
            show trOf (incTransferred d f.size s.ledger) n = _
            exact trOf_congr _ _ n (incTransferred_other d f.size s.ledger n hn)
        · exact ih (k + 1) s3 l (fun x hx => hsub x (List.mem_cons_of_mem f hx)) hch
      · have hunfold : fileLoop oc d (f :: rest) k s =
            ([{ s with auths := s.auths ++ [(d, k)] },
              { s with auths := s.auths ++ [(d, k)], txs := s.txs ++ [(d, k)] }],
             { s with auths := s.auths ++ [(d, k)], txs := s.txs ++ [(d, k)] }, false) := by
          simp [fileLoop, ha, htx]
        rw [hunfold] at hch ⊢
        exact List.Chain.cons (uploadStep_of_eq fsAll s _ (fun n => rfl))
          (List.Chain.cons (uploadStep_of_eq fsAll _ _ (fun n => rfl)) hch)
    · have hunfold : fileLoop oc d (f :: rest) k s =
          ([{ s with auths := s.auths ++ [(d, k)] }],
           { s with auths := s.auths ++ [(d, k)] }, false) := by
        simp [fileLoop, ha]
      rw [hunfold] at hch ⊢
      exact List.Chain.cons (uploadStep_of_eq fsAll s _ (fun n => rfl)) hch

/-- The observation points of the whole destination loop form a chain of
`uploadStep`s. -/
lemma destsLoop_chain (oc : Oracle) (files : List LocalFile) :
    ∀ (servers : List Server) (s : OrchState) (l : List OrchState),
      List.Chain (uploadStep files) (destsLoop oc files servers s).2.1 l →
      List.Chain (uploadStep files) s ((destsLoop oc files servers s).1 ++ l) := by
  intro servers
  induction servers with
  | nil => intro s l h; exact h
  | cons srv rest ih =>
    intro s l hch
    by_cases hen : enabledIn s.ledger srv.name
    · by_cases rok : (fileLoop oc srv.name files 0 s).2.2
      · set r1 := (fileLoop oc srv.name files 0 s).2.1 with hr1
        set s3 : OrchState :=
          { r1 with invals := r1.invals ++ [srv.name], filesSel := [],
                    clears := r1.clears + 1 } with hs3
        have hd : destsLoop oc files (srv :: rest) s
            = ((fileLoop oc srv.name files 0 s).1
                ++ { r1 with invals := r1.invals ++ [srv.name] } :: s3 :: (destsLoop oc files rest s3).1,
               (destsLoop oc files rest s3).2) := by
          simp [destsLoop, hen, rok, hs3]
        rw [hd] at hch ⊢
        show List.Chain (uploadStep files) s
          (((fileLoop oc srv.name files 0 s).1
            ++ { r1 with invals := r1.invals ++ [srv.name] } :: s3 :: (destsLoop oc files rest s3).1) ++ l)
        rw [List.append_assoc]
        refine fileLoop_chain oc srv.name files files 0 s _ (fun x hx => hx) ?_
        show List.Chain (uploadStep files) r1
          (({ r1 with invals := r1.invals ++ [srv.name] } :: s3 :: (destsLoop oc files rest s3).1) ++ l)
        refine List.Chain.cons (uploadStep_of_eq files r1 _ (fun n => rfl))
          (List.Chain.cons (uploadStep_of_eq files _ _ (fun n => rfl)) ?_)
        show List.Chain (uploadStep files) s3 ((destsLoop oc files rest s3).1 ++ l)
        exact ih s3 l hch
      · have rok' : (fileLoop oc srv.name files 0 s).2.2 = false := by
          rw [Bool.not_eq_true] at rok; exact rok
        rw [destsLoop_failHead oc files srv rest s hen rok'] at hch ⊢
        exact fileLoop_chain oc srv.name files files 0 s l (fun x hx => hx) hch
    · have hen' : enabledIn s.ledger srv.name = false := by
        rw [Bool.not_eq_true] at hen; exact hen
      have hd : destsLoop oc files (srv :: rest) s = destsLoop oc files rest s := by
        simp [destsLoop, hen']
      rw [hd] at hch ⊢
      exact ih s l hch

/-! ### Unfolding the two branches of `upload` -/

lemma upload_empty (oc : Oracle) (sanitize : LocalFile → LocalFile) (clean : Bool)
    (servers : List Server) (s : OrchState)
    (he : uploadFiles sanitize clean s = []) :
    upload oc sanitize clean servers s = ([], s, true) := by
  simp [upload, he]

lemma upload_unfold (oc : Oracle) (sanitize : LocalFile → LocalFile) (clean : Bool)
    (servers : List Server) (s : OrchState)
    (hne : uploadFiles sanitize clean s ≠ []) :
    upload oc sanitize clean servers s
      = ({ s with ledger := setSizes servers (sumSizes (uploadFiles sanitize clean s)) s.ledger }
          :: (destsLoop oc (uploadFiles sanitize clean s) servers
              { s with ledger := setSizes servers (sumSizes (uploadFiles sanitize clean s)) s.ledger }).1,
         (destsLoop oc (uploadFiles sanitize clean s) servers
              { s with ledger := setSizes servers (sumSizes (uploadFiles sanitize clean s)) s.ledger }).2) := by
  have hlen : (uploadFiles sanitize clean s).length ≠ 0 := by
    intro h; exact hne (List.length_eq_zero.mp h)
  simp [upload, hlen]

/-! ### The claims -/

/-- C1, counterexample.  The claim says a failure while processing
destination D aborts only D's file loop and every later enabled
destination's file loop still runs.  Concretely: destinations A and B are
both enabled, the batch holds one 100-byte file, and `getUploadAuth` fails
for A (first destination).  B's file loop never runs: the only external call
of the whole batch is the failed auth call for A, no invalidation fires and
no file-clear happens — the rejection propagates out of the un-guarded
`async` function `upload` and aborts the entire batch. -/
theorem claim_C1_counterexample :
    enabledIn stAB1.ledger "B" = true ∧
    (uploadFiles sanId false stAB1).length = 1 ∧
    (upload ocAuthFailA sanId false [srvA, srvB] stAB1).2.1.auths = [("A", 0)] ∧
    (upload ocAuthFailA sanId false [srvA, srvB] stAB1).2.1.txs = [] ∧
    (upload ocAuthFailA sanId false [srvA, srvB] stAB1).2.1.invals = [] ∧
    (upload ocAuthFailA sanId false [srvA, srvB] stAB1).2.1.clears = 0 ∧
    (upload ocAuthFailA sanId false [srvA, srvB] stAB1).2.2 = false := by
  decide

/-- C1, amended.  A failure of the Authorizer or Transport call while
processing the (enabled) destination at the head of the remaining server
list aborts not just that destination's file loop but the whole remainder of
the batch: the destination loop's result is exactly the failing file loop's
result, independent of the remaining destinations (`rest` does not occur on
the right-hand side), and the failing destination receives no
cache-invalidation and triggers no file-clear.  Ledger entries of other
destinations are unaffected by the failing destination's pass itself
(`fileLoop` only touches its own destination's entry — see
`claim_C6_amended`), but destinations after the failing one never run. -/
theorem claim_C1_amended (oc : Oracle) (files : List LocalFile) (srv : Server)
    (rest : List Server) (s : OrchState)
    (hen : enabledIn s.ledger srv.name = true)
    (hfail : (fileLoop oc srv.name files 0 s).2.2 = false) :
    destsLoop oc files (srv :: rest) s
      = ((fileLoop oc srv.name files 0 s).1, (fileLoop oc srv.name files 0 s).2.1, false) ∧
    (fileLoop oc srv.name files 0 s).2.1.invals = s.invals ∧
    (fileLoop oc srv.name files 0 s).2.1.clears = s.clears ∧
    (fileLoop oc srv.name files 0 s).2.1.filesSel = s.filesSel := by
  obtain ⟨_, hfin⟩ := fileLoop_facts oc srv.name files 0 s
  obtain ⟨hi, hc, hf, _, _, _, _, _, _, _⟩ := hfin
  exact ⟨destsLoop_failHead oc files srv rest s hen hfail, hi, hc, hf⟩

/-- Witness for `claim_C1_amended` at the concrete counterexample input. -/
theorem claim_C1_witness :
    enabledIn stAB1.ledger srvA.name = true ∧
    (fileLoop ocAuthFailA srvA.name [⟨100⟩] 0 stAB1).2.2 = false ∧
    (destsLoop ocAuthFailA [⟨100⟩] [srvA, srvB] stAB1
      = ((fileLoop ocAuthFailA srvA.name [⟨100⟩] 0 stAB1).1,
         (fileLoop ocAuthFailA srvA.name [⟨100⟩] 0 stAB1).2.1, false) ∧
     (fileLoop ocAuthFailA srvA.name [⟨100⟩] 0 stAB1).2.1.invals = stAB1.invals ∧
     (fileLoop ocAuthFailA srvA.name [⟨100⟩] 0 stAB1).2.1.clears = stAB1.clears ∧
     (fileLoop ocAuthFailA srvA.name [⟨100⟩] 0 stAB1).2.1.filesSel = stAB1.filesSel) :=
  ⟨by decide, by decide,
    claim_C1_amended ocAuthFailA [⟨100⟩] srvA [srvB] stAB1 (by decide) (by decide)⟩

/-- C2, counterexample.  The claim says the cache-invalidation signal fires
exactly once per enabled destination per batch pass, including when the pass
ends in a transport failure.  Concretely: one enabled destination A, one
50-byte batch... here a 100-byte file, transport fails — the batch ends with
zero invalidations even though one destination is enabled. -/
theorem claim_C2_counterexample :
    enabledIn stA1.ledger "A" = true ∧
    (uploadFiles sanId false stA1).length = 1 ∧
    ([srvA].filter (fun srv => enabledIn stA1.ledger srv.name)).length = 1 ∧
    (upload ocTxFail sanId false [srvA] stA1).2.1.invals = [] := by
  decide

/-- C2, amended.  When no external call fails, the cache-invalidation signal
fires exactly once per enabled destination, in destination order (first
conjunct).  When a destination's pass ends in an Authorizer/Transport
failure, no invalidation fires for that destination — nor for any later one,
since the whole batch aborts (second conjunct). -/
theorem claim_C2_amended :
    (∀ (oc : Oracle) (sanitize : LocalFile → LocalFile) (clean : Bool)
      (servers : List Server) (s : OrchState),
      (∀ n j, oc.authOk n j = true ∧ oc.txOk n j = true) →
      uploadFiles sanitize clean s ≠ [] →
      (upload oc sanitize clean servers s).2.1.invals
        = s.invals ++ (servers.filter (fun srv => enabledIn s.ledger srv.name)).map Server.name) ∧
    (∀ (oc : Oracle) (files : List LocalFile) (srv : Server) (rest : List Server)
      (s : OrchState),
      enabledIn s.ledger srv.name = true →
      (fileLoop oc srv.name files 0 s).2.2 = false →
      (destsLoop oc files (srv :: rest) s).2.1.invals = s.invals) := by
  constructor
  · intro oc sanitize clean servers s hok hne
    rw [upload_unfold oc sanitize clean servers s hne]
    set s1 : OrchState :=
      { s with ledger := setSizes servers (sumSizes (uploadFiles sanitize clean s)) s.ledger }
      with hs1
    obtain ⟨h1, _, _, _⟩ := destsLoop_allOk oc (uploadFiles sanitize clean s) hok servers s1
    show (destsLoop oc (uploadFiles sanitize clean s) servers s1).2.1.invals = _
    rw [h1]
    have hfc : servers.filter (fun srv => enabledIn s1.ledger srv.name)
        = servers.filter (fun srv => enabledIn s.ledger srv.name) := by
      apply List.filter_congr
      intro x _
      show enabledIn (setSizes servers (sumSizes (uploadFiles sanitize clean s)) s.ledger) x.name
        = enabledIn s.ledger x.name
      rw [setSizes_enabledIn]
    rw [hfc]
  · intro oc files srv rest s hen hfail
    rw [destsLoop_failHead oc files srv rest s hen hfail]
    obtain ⟨_, hfin⟩ := fileLoop_facts oc srv.name files 0 s
    obtain ⟨hi, _, _, _, _, _, _, _, _, _⟩ := hfin
    exact hi

/-- Witness for `claim_C2_amended`: the all-success part on a two-destination
batch, the failure part on the transport-failure batch. -/
theorem claim_C2_witness :
    ((upload ocAll sanId false [srvA, srvB] stAB1).2.1.invals
      = stAB1.invals
        ++ (([srvA, srvB].filter (fun srv => enabledIn stAB1.ledger srv.name)).map Server.name)) ∧
    (destsLoop ocTxFail [⟨100⟩] [srvA] stA1).2.1.invals = stA1.invals :=
  ⟨claim_C2_amended.1 ocAll sanId false [srvA, srvB] stAB1
      (fun _ _ => ⟨rfl, rfl⟩) (by decide),
   claim_C2_amended.2 ocTxFail [⟨100⟩] srvA [] stA1 (by decide) (by decide)⟩

/-- C3, counterexample.  The claim says the file selection is cleared
exactly once per batch, and only after every enabled destination has
finished.  Concretely: two enabled destinations, one file, every call
succeeds — `setFiles([])` runs twice (once per destination, from inside the
loop), and the first clear (trace index 5) happens when only destination A
has been processed (the call log holds A's calls only), before B's pass
starts. -/
theorem claim_C3_counterexample :
    (upload ocAll sanId false [srvA, srvB] stAB1).2.1.clears = 2 ∧
    (2 ≠ 1) ∧
    ((upload ocAll sanId false [srvA, srvB] stAB1).1.getD 5 stAB1).clears = 1 ∧
    ((upload ocAll sanId false [srvA, srvB] stAB1).1.getD 5 stAB1).auths = [("A", 0)] ∧
    ((upload ocAll sanId false [srvA, srvB] stAB1).1.getD 6 stAB1).auths
      = [("A", 0), ("B", 0)] := by
  decide

/-- C3, amended.  For a non-empty batch in which no external call fails, the
file selection is cleared once per enabled destination (not once per batch),
and the selection ends empty exactly when at least one destination was
enabled.  If a destination's pass fails, no clear happens for it or any
later destination (second conjunct); in particular a batch whose first
enabled destination fails keeps its file selection. -/
theorem claim_C3_amended :
    (∀ (oc : Oracle) (sanitize : LocalFile → LocalFile) (clean : Bool)
      (servers : List Server) (s : OrchState),
      (∀ n j, oc.authOk n j = true ∧ oc.txOk n j = true) →
      uploadFiles sanitize clean s ≠ [] →
      (upload oc sanitize clean servers s).2.1.clears
        = s.clears + (servers.filter (fun srv => enabledIn s.ledger srv.name)).length ∧
      (upload oc sanitize clean servers s).2.1.filesSel
        = (if (servers.filter (fun srv => enabledIn s.ledger srv.name)).length = 0
           then s.filesSel else [])) ∧
    (∀ (oc : Oracle) (files : List LocalFile) (srv : Server) (rest : List Server)
      (s : OrchState),
      enabledIn s.ledger srv.name = true →
      (fileLoop oc srv.name files 0 s).2.2 = false →
      (destsLoop oc files (srv :: rest) s).2.1.clears = s.clears ∧
      (destsLoop oc files (srv :: rest) s).2.1.filesSel = s.filesSel) := by
  constructor
  · intro oc sanitize clean servers s hok hne
    rw [upload_unfold oc sanitize clean servers s hne]
    set s1 : OrchState :=
      { s with ledger := setSizes servers (sumSizes (uploadFiles sanitize clean s)) s.ledger }
      with hs1
    obtain ⟨_, h2, h3, _⟩ := destsLoop_allOk oc (uploadFiles sanitize clean s) hok servers s1
    have hfc : servers.filter (fun srv => enabledIn s1.ledger srv.name)
        = servers.filter (fun srv => enabledIn s.ledger srv.name) := by
      apply List.filter_congr
      intro x _
      show enabledIn (setSizes servers (sumSizes (uploadFiles sanitize clean s)) s.ledger) x.name
        = enabledIn s.ledger x.name
      rw [setSizes_enabledIn]
    constructor
    · show (destsLoop oc (uploadFiles sanitize clean s) servers s1).2.1.clears = _
      rw [h2, hfc]
    · show (destsLoop oc (uploadFiles sanitize clean s) servers s1).2.1.filesSel = _
      rw [h3, hfc]
  · intro oc files srv rest s hen hfail
    rw [destsLoop_failHead oc files srv rest s hen hfail]
    obtain ⟨_, hfin⟩ := fileLoop_facts oc srv.name files 0 s
    obtain ⟨_, hc, hf, _, _, _, _, _, _, _⟩ := hfin
    exact ⟨hc, hf⟩

/-- Witness for `claim_C3_amended` at concrete inputs. -/
theorem claim_C3_witness :
    ((upload ocAll sanId false [srvA, srvB] stAB1).2.1.clears
        = stAB1.clears + (([srvA, srvB].filter (fun srv => enabledIn stAB1.ledger srv.name)).length) ∧
      (upload ocAll sanId false [srvA, srvB] stAB1).2.1.filesSel
        = (if (([srvA, srvB].filter (fun srv => enabledIn stAB1.ledger srv.name)).length = 0)
           then stAB1.filesSel else [])) ∧
    ((destsLoop ocTxFail [⟨100⟩] [srvA] stA1).2.1.clears = stA1.clears ∧
      (destsLoop ocTxFail [⟨100⟩] [srvA] stA1).2.1.filesSel = stA1.filesSel) :=
  ⟨claim_C3_amended.1 ocAll sanId false [srvA, srvB] stAB1
      (fun _ _ => ⟨rfl, rfl⟩) (by decide),
   claim_C3_amended.2 ocTxFail [⟨100⟩] srvA [] stA1 (by decide) (by decide)⟩

/-- C4, confirmed.  For a non-empty batch, the first observation point of
the run is already the fully sized state: a single `setTransfers` transition
(no observer sees a partially sized ledger), taken before any Authorizer or
Transport call is logged.  At that state every enabled destination's entry
carries `size = Σ` sanitized file sizes with `transferred` untouched, every
entry's `transferred` is untouched, and entries that are disabled (or
absent) are not modified at all. -/
theorem claim_C4_sizing (oc : Oracle) (sanitize : LocalFile → LocalFile)
    (clean : Bool) (servers : List Server) (s : OrchState)
    (hne : uploadFiles sanitize clean s ≠ []) :
    (upload oc sanitize clean servers s).1.head?
      = some { s with ledger := setSizes servers (sumSizes (uploadFiles sanitize clean s)) s.ledger } ∧
    ({ s with ledger := setSizes servers (sumSizes (uploadFiles sanitize clean s)) s.ledger
      } : OrchState).auths = s.auths ∧
    ({ s with ledger := setSizes servers (sumSizes (uploadFiles sanitize clean s)) s.ledger
      } : OrchState).txs = s.txs ∧
    (∀ srv ∈ servers, ∀ t0 : TransferStats, s.ledger srv.name = some t0 →
      t0.enabled = true →
      setSizes servers (sumSizes (uploadFiles sanitize clean s)) s.ledger srv.name
        = some ⟨true, sumSizes (uploadFiles sanitize clean s), t0.transferred⟩) ∧
    (∀ n, trOf (setSizes servers (sumSizes (uploadFiles sanitize clean s)) s.ledger) n
      = trOf s.ledger n) ∧
    (∀ n, enabledIn s.ledger n = false →
      setSizes servers (sumSizes (uploadFiles sanitize clean s)) s.ledger n = s.ledger n) := by
  refine ⟨?_, rfl, rfl, ?_, ?_, ?_⟩
  · rw [upload_unfold oc sanitize clean servers s hne]
    rfl
  · intro srv hmem t0 ht0 he
    exact setSizes_enabledTrue servers _ s.ledger srv.name t0 ht0 he ⟨srv, hmem, rfl⟩
  · intro n
    rw [setSizes_trOf]
  · intro n hdis
    exact setSizes_enabledFalse servers _ s.ledger n hdis

/-- Witness for `claim_C4_sizing` at a concrete input. -/
theorem claim_C4_witness :
    uploadFiles sanId false stAB1 ≠ [] ∧
    (upload ocAll sanId false [srvA, srvB] stAB1).1.head?
      = some { stAB1 with
          ledger := setSizes [srvA, srvB] (sumSizes (uploadFiles sanId false stAB1)) stAB1.ledger } :=
  ⟨by decide, (claim_C4_sizing ocAll sanId false [srvA, srvB] stAB1 (by decide)).1⟩

/-- C5, counterexample.  The claim's bound `transferred ≤ size` fails for a
batch whose destination still carries `transferred` from a previous batch:
after a successful 100-byte batch (`stCarry`, reachable by running `upload`
from the freshly reset `stA1`), the user selects a 50-byte file and uploads
again.  At the very first observation point of the second batch (the sizing
transition) destination A reads `transferred = 100 > 50 = size` — nothing
ever resets `transferred` between batches. -/
theorem claim_C5_counterexample :
    trOf stCarry.ledger "A" = 100 ∧
    szOf stCarry.ledger "A" = 100 ∧
    stCarry2.filesSel = [⟨50⟩] ∧
    trOf ((upload ocAll sanId false [srvA] stCarry2).1.getD 0 stCarry2).ledger "A" = 100 ∧
    szOf ((upload ocAll sanId false [srvA] stCarry2).1.getD 0 stCarry2).ledger "A" = 50 ∧
    ¬ (trOf ((upload ocAll sanId false [srvA] stCarry2).1.getD 0 stCarry2).ledger "A"
        ≤ szOf ((upload ocAll sanId false [srvA] stCarry2).1.getD 0 stCarry2).ledger "A") := by
  decide

/-- C5, amended.  Provided every destination's `transferred` is `0` when the
batch starts (true after a ledger reset or a toggle, but not after an
earlier batch in the same session) and destination names are distinct, the
run's observation points form a chain in which each step either leaves every
`transferred` unchanged or adds exactly the size of one batch file to it (so
`transferred` is monotonically non-decreasing and never decremented), and at
every observation point and at the end, every destination satisfies
`transferred ≤ size`. -/
theorem claim_C5_amended (oc : Oracle) (sanitize : LocalFile → LocalFile)
    (clean : Bool) (servers : List Server) (s : OrchState)
    (hnd : (servers.map Server.name).Nodup)
    (h0 : ∀ srv ∈ servers, trOf s.ledger srv.name = 0) :
    List.Chain (uploadStep (uploadFiles sanitize clean s)) s
      (upload oc sanitize clean servers s).1 ∧
    (∀ t ∈ (upload oc sanitize clean servers s).1, ∀ srv ∈ servers,
      trOf t.ledger srv.name ≤ szOf t.ledger srv.name) ∧
    (∀ srv ∈ servers,
      trOf (upload oc sanitize clean servers s).2.1.ledger srv.name
        ≤ szOf (upload oc sanitize clean servers s).2.1.ledger srv.name) := by
  by_cases hemp : uploadFiles sanitize clean s = []
  · rw [upload_empty oc sanitize clean servers s hemp]
    refine ⟨List.Chain.nil, fun t ht => by simp at ht, fun srv hmem => ?_⟩
    rw [h0 srv hmem]
    exact Nat.zero_le _
  · rw [upload_unfold oc sanitize clean servers s hemp]
    set fsU := uploadFiles sanitize clean s with hfsU
    set s1 : OrchState := { s with ledger := setSizes servers (sumSizes fsU) s.ledger }
      with hs1
    have htr1 : ∀ n, trOf s1.ledger n = trOf s.ledger n := by
      intro n
      show trOf (setSizes servers (sumSizes fsU) s.ledger) n = _
      rw [setSizes_trOf]
    have hw1 : ∀ srv ∈ servers, trOf s1.ledger srv.name ≤ szOf s1.ledger srv.name := by
      intro srv hmem
      rw [htr1, h0 srv hmem]
      exact Nat.zero_le _
    have hs1' : ∀ srv ∈ servers, enabledIn s1.ledger srv.name = true →
        trOf s1.ledger srv.name + sumSizes fsU ≤ szOf s1.ledger srv.name := by
      intro srv hmem hena
      have hen : enabledIn s.ledger srv.name = true := by
        have := setSizes_enabledIn servers (sumSizes fsU) s.ledger srv.name
        rw [← this]
        exact hena
      cases hg : s.ledger srv.name with
      | none =>
        unfold enabledIn at hen
        rw [hg] at hen
        simp at hen
      | some t0 =>
        have he : t0.enabled = true := by
          unfold enabledIn at hen
          rw [hg] at hen
          exact hen
        have hsz : s1.ledger srv.name = some ⟨true, sumSizes fsU, t0.transferred⟩ :=
          setSizes_enabledTrue servers (sumSizes fsU) s.ledger srv.name t0 hg he
            ⟨srv, hmem, rfl⟩
        have hszv : szOf s1.ledger srv.name = sumSizes fsU := by
          unfold szOf
          rw [hsz]
        rw [hszv, htr1, h0 srv hmem, Nat.zero_add]
    obtain ⟨hbtr, hbfin⟩ := destsLoop_bound oc fsU servers s1 hnd hw1 hs1'
    refine ⟨?_, ?_, ?_⟩
    · refine List.Chain.cons (uploadStep_of_eq fsU s s1 htr1) ?_
      have := destsLoop_chain oc fsU servers s1 [] List.Chain.nil
      rwa [List.append_nil] at this
    · intro t ht srv hmem
      rcases List.mem_cons.mp ht with h1 | h2
      · subst h1; exact hw1 srv hmem
      · exact hbtr t h2 srv hmem
    · exact hbfin

/-- Witness for `claim_C5_amended` at a concrete input. -/
theorem claim_C5_witness :
    ([srvA].map Server.name).Nodup ∧
    (∀ srv ∈ [srvA], trOf stA1.ledger srv.name = 0) ∧
    (List.Chain (uploadStep (uploadFiles sanId false stA1)) stA1
        (upload ocAll sanId false [srvA] stA1).1 ∧
      (∀ t ∈ (upload ocAll sanId false [srvA] stA1).1, ∀ srv ∈ [srvA],
        trOf t.ledger srv.name ≤ szOf t.ledger srv.name) ∧
      (∀ srv ∈ [srvA],
        trOf (upload ocAll sanId false [srvA] stA1).2.1.ledger srv.name
          ≤ szOf (upload ocAll sanId false [srvA] stA1).2.1.ledger srv.name)) :=
  ⟨by decide, by decide,
   claim_C5_amended ocAll sanId false [srvA] stA1 (by decide) (by decide)⟩

/-- C6, counterexample.  The claim says that when Transport fails on the
k-th file of destination D, D's `transferred` equals the sum of the sizes of
files 1..k-1.  On the second batch of a session (`stCarry2`: destination A
carries `transferred = 100` from the completed first batch) Transport fails
on the first file (k = 1): the sum of files 1..0 is 0, yet A's `transferred`
is 100 — the claim needs `transferred = 0` at the start of the pass. -/
theorem claim_C6_counterexample :
    ocTxFail.authOk "A" 0 = true ∧
    ocTxFail.txOk "A" 0 = false ∧
    enabledIn stCarry2.ledger "A" = true ∧
    stCarry2.filesSel = [⟨50⟩] ∧
    trOf stCarry2.ledger "A" = 100 ∧
    trOf (upload ocTxFail sanId false [srvA] stCarry2).2.1.ledger "A" = 100 ∧
    sumSizes (([⟨50⟩] : List LocalFile).take 0) = 0 ∧
    (100 ≠ 0) := by
  decide

/-- C6, amended.  Provided destination `d` is enabled and starts its pass
with `transferred = 0`, a Transport failure on the file at position `i`
(0-based; the claim's k-th file with k = i+1), after `i` fully successful
files, leaves the pass aborted with `d.transferred = Σ` sizes of the first
`i` files, and every other destination's ledger entry is untouched by the
pass. -/
theorem claim_C6_amended (oc : Oracle) (d : String) (fs : List LocalFile)
    (s : OrchState) (i : Nat)
    (hi : i < fs.length)
    (hok : ∀ j, j < i → oc.authOk d j = true ∧ oc.txOk d j = true)
    (hai : oc.authOk d i = true) (hti : oc.txOk d i = false)
    (hen : enabledIn s.ledger d = true) (h0 : trOf s.ledger d = 0) :
    (fileLoop oc d fs 0 s).2.2 = false ∧
    trOf (fileLoop oc d fs 0 s).2.1.ledger d = sumSizes (fs.take i) ∧
    (∀ n, n ≠ d → (fileLoop oc d fs 0 s).2.1.ledger n = s.ledger n) := by
  have hsome := enabledIn_isSome s.ledger d hen
  have hok' : ∀ j, j < i → oc.authOk d (0 + j) = true ∧ oc.txOk d (0 + j) = true := by
    intro j hj
    rw [Nat.zero_add]
    exact hok j hj
  have hai' : oc.authOk d (0 + i) = true := by rw [Nat.zero_add]; exact hai
  have hti' : oc.txOk d (0 + i) = false := by rw [Nat.zero_add]; exact hti
  obtain ⟨hkf, htrf⟩ := fileLoop_txFail oc d fs i 0 s hi hok' hai' hti' hsome
  obtain ⟨_, hfin⟩ := fileLoop_facts oc d fs 0 s
  obtain ⟨_, _, _, h4, _, _, _, _, _, _⟩ := hfin
  exact ⟨hkf, by rw [htrf, h0, Nat.zero_add], fun n hn => h4 n hn⟩

/-- Witness for `claim_C6_amended`: two files of 100 and 50 bytes, transport
fails on the second (i = 1); `transferred` ends at 100. -/
theorem claim_C6_witness :
    (1 < ([⟨100⟩, ⟨50⟩] : List LocalFile).length) ∧
    (∀ j, j < 1 → ocTxFail1.authOk "A" j = true ∧ ocTxFail1.txOk "A" j = true) ∧
    ocTxFail1.authOk "A" 1 = true ∧
    ocTxFail1.txOk "A" 1 = false ∧
    enabledIn stA.ledger "A" = true ∧
    trOf stA.ledger "A" = 0 ∧
    ((fileLoop ocTxFail1 "A" [⟨100⟩, ⟨50⟩] 0 stA).2.2 = false ∧
     trOf (fileLoop ocTxFail1 "A" [⟨100⟩, ⟨50⟩] 0 stA).2.1.ledger "A"
       = sumSizes (([⟨100⟩, ⟨50⟩] : List LocalFile).take 1) ∧
     (∀ n, n ≠ "A" →
       (fileLoop ocTxFail1 "A" [⟨100⟩, ⟨50⟩] 0 stA).2.1.ledger n = stA.ledger n)) :=
  ⟨by decide, by decide, by decide, by decide, by decide, by decide,
   claim_C6_amended ocTxFail1 "A" [⟨100⟩, ⟨50⟩] stA 1 (by decide) (by decide)
     (by decide) (by decide) (by decide) (by decide)⟩

/-- C7, confirmed.  A destination whose ledger entry is
`{enabled: false, size: 0, transferred: 0}` at batch start receives no
`getUploadAuth` and no `uploadBlob` call during the batch, and its entry
still reads `{enabled: false, size: 0, transferred: 0}` at every observation
point and at the end: the sizing pass skips disabled entries and the
transfer loop `continue`s over them. -/
theorem claim_C7_disabled (oc : Oracle) (sanitize : LocalFile → LocalFile)
    (clean : Bool) (servers : List Server) (s : OrchState) (D : String)
    (hD : s.ledger D = some ⟨false, 0, 0⟩)
    (ha : s.auths = []) (ht : s.txs = []) :
    (∀ t ∈ (upload oc sanitize clean servers s).1, t.ledger D = some ⟨false, 0, 0⟩) ∧
    (upload oc sanitize clean servers s).2.1.ledger D = some ⟨false, 0, 0⟩ ∧
    (∀ e ∈ (upload oc sanitize clean servers s).2.1.auths, e.1 ≠ D) ∧
    (∀ e ∈ (upload oc sanitize clean servers s).2.1.txs, e.1 ≠ D) := by
  have henD : enabledIn s.ledger D = false := by
    unfold enabledIn
    rw [hD]
  by_cases hemp : uploadFiles sanitize clean s = []
  · rw [upload_empty oc sanitize clean servers s hemp]
    refine ⟨fun t hmem => by simp at hmem, hD, ?_, ?_⟩
    · intro e he
      rw [ha] at he
      simp at he
    · intro e he
      rw [ht] at he
      simp at he
  · rw [upload_unfold oc sanitize clean servers s hemp]
    set fsU := uploadFiles sanitize clean s with hfsU
    set s1 : OrchState := { s with ledger := setSizes servers (sumSizes fsU) s.ledger }
      with hs1
    have hD1 : s1.ledger D = some ⟨false, 0, 0⟩ := by
      show setSizes servers (sumSizes fsU) s.ledger D = _
      rw [setSizes_enabledFalse servers (sumSizes fsU) s.ledger D henD, hD]
    have hen1 : enabledIn s1.ledger D = false := by
      show enabledIn (setSizes servers (sumSizes fsU) s.ledger) D = false
      rw [setSizes_enabledIn]
      exact henD
    have hyp : ∀ srv ∈ servers, enabledIn s1.ledger srv.name = true → srv.name ≠ D := by
      intro srv _ he hname
      rw [hname, hen1] at he
      simp at he
    have huntouched := destsLoop_untouched oc fsU D servers s1 hyp
    obtain ⟨⟨la, hla, hlaA⟩, ⟨lt, hlt, hltA⟩⟩ := destsLoop_calls oc fsU servers s1
    refine ⟨?_, ?_, ?_, ?_⟩
    · intro t hmem
      rcases List.mem_cons.mp hmem with h1 | h2
      · subst h1; exact hD1
      · rw [huntouched.1 t h2]; exact hD1
    · show (destsLoop oc fsU servers s1).2.1.ledger D = _
      rw [huntouched.2]; exact hD1
    · intro e he
      show e.1 ≠ D
      rw [hla] at he
      have hs1a : s1.auths = [] := ha
      rw [hs1a, List.nil_append] at he
      intro heD
      have := hlaA e he
      rw [heD, hen1] at this
      simp at this
    · intro e he
      show e.1 ≠ D
      rw [hlt] at he
      have hs1t : s1.txs = [] := ht
      rw [hs1t, List.nil_append] at he
      intro heD
      have := hltA e he
      rw [heD, hen1] at this
      simp at this

/-- Witness for `claim_C7_disabled`: A enabled, B disabled, one file, every
call succeeds. -/
theorem claim_C7_witness :
    stABdis.ledger "B" = some ⟨false, 0, 0⟩ ∧
    stABdis.auths = [] ∧
    stABdis.txs = [] ∧
    ((∀ t ∈ (upload ocAll sanId false [srvA, srvB] stABdis).1,
        t.ledger "B" = some ⟨false, 0, 0⟩) ∧
      (upload ocAll sanId false [srvA, srvB] stABdis).2.1.ledger "B"
        = some ⟨false, 0, 0⟩ ∧
      (∀ e ∈ (upload ocAll sanId false [srvA, srvB] stABdis).2.1.auths, e.1 ≠ "B") ∧
      (∀ e ∈ (upload ocAll sanId false [srvA, srvB] stABdis).2.1.txs, e.1 ≠ "B")) :=
  ⟨by decide, by decide, by decide,
   claim_C7_disabled ocAll sanId false [srvA, srvB] stABdis "B" (by decide)
     (by decide) (by decide)⟩

lemma clearTransfers_aux : ∀ (servers : List Server) (acc : Ledger) (n : String),
    (acc n = some ⟨true, 0, 0⟩ ∨ ∃ x ∈ servers, x.name = n) →
    List.foldl (fun acc2 srv => insertL srv.name ⟨true, 0, 0⟩ acc2) acc servers n
      = some ⟨true, 0, 0⟩ := by
  intro servers
  induction servers with
  | nil =>
    intro acc n h
    rcases h with h | ⟨x, hx, _⟩
    · exact h
    · simp at hx
  | cons srv rest ih =>
    intro acc n h
    show List.foldl _ (insertL srv.name ⟨true, 0, 0⟩ acc) rest n = _
    apply ih
    by_cases hn : n = srv.name
    · left
      rw [hn, insertL_same]
    · rcases h with h | ⟨x, hx, hxn⟩
      · left
        rw [insertL_other srv.name _ acc n hn]
        exact h
      · rcases List.mem_cons.mp hx with h1 | h2
        · exact absurd (h1 ▸ hxn).symm hn
        · right
          exact ⟨x, h2, hxn⟩

/-- C8, confirmed.  `clearTransfers` rebuilds the whole ledger from the new
server list: every destination of the list gets
`{enabled: true, size: 0, transferred: 0}`, whatever the prior ledger `g`
held for it — prior enabled/disabled choices and counters are discarded
(the prior ledger is universally quantified and does not occur in the
result). -/
theorem claim_C8_reset (servers : List Server) (g : Ledger) (srv : Server)
    (hmem : srv ∈ servers) :
    clearTransfers servers g srv.name = some ⟨true, 0, 0⟩ :=
  clearTransfers_aux servers emptyLedger srv.name (Or.inr ⟨srv, hmem, rfl⟩)

/-- Witness for `claim_C8_reset`: a prior ledger in which B was disabled is
reset to `{enabled: true, size: 0, transferred: 0}` for B. -/
theorem claim_C8_witness :
    srvB ∈ [srvA, srvB] ∧
    clearTransfers [srvA, srvB] (toggleTransfer "B" false stAB.ledger) srvB.name
      = some ⟨true, 0, 0⟩ :=
  ⟨by decide,
   claim_C8_reset [srvA, srvB] (toggleTransfer "B" false stAB.ledger) srvB (by decide)⟩

/-- C9, confirmed.  Running the ledger reset twice in a row with the same
destination list gives exactly the state of running it once: the rebuild
ignores the ledger it replaces. -/
theorem claim_C9_idempotent (servers : List Server) (g : Ledger) :
    clearTransfers servers (clearTransfers servers g) = clearTransfers servers g := rfl

/-- C10, confirmed.  The checkbox handler replaces the toggled destination's
entry by `{enabled: newValue, size: 0, transferred: 0}` — zeroing the
counters in both directions, including on re-enable — and leaves every other
destination's entry unchanged. -/
theorem claim_C10_toggle (name : String) (checked : Bool) (g : Ledger) (k : String) :
    toggleTransfer name checked g name = some ⟨checked, 0, 0⟩ ∧
    (k ≠ name → toggleTransfer name checked g k = g k) :=
  ⟨insertL_same name _ g, fun h => insertL_other name _ g k h⟩

/-- Witness for `claim_C10_toggle`: toggling A off zeroes A and leaves B
alone. -/
theorem claim_C10_witness :
    ("B" : String) ≠ "A" ∧
    toggleTransfer "A" false stAB.ledger "A" = some ⟨false, 0, 0⟩ ∧
    toggleTransfer "A" false stAB.ledger "B" = stAB.ledger "B" :=
  ⟨by decide, (claim_C10_toggle "A" false stAB.ledger "B").1,
   (claim_C10_toggle "A" false stAB.ledger "B").2 (by decide)⟩

end Bouquet
